import Mathlib

/-!
# kubecolor: the `kubectl describe` printer

A shallow embedding of `printer/kubectl_describe.go`.

* Go strings and byte slices are lists of characters (`Text`).
* The sink `w io.Writer` is the list of the calls made on it, in order:
  a direct write of some bytes, or a call of the table printer on a buffer.
* The collaborators that live in other packages (`color.Apply`, `ColorStatus`,
  `getColorByValueType`, `getColorByKeyIndent`) are parameters, gathered in `Deps`.
* The scanner is represented by the sequence of `(Line, Path)` pairs it yields.
-/

namespace Kubecolor

/-- Go `string` / `[]byte`. -/
abbrev Text := List Char

/-! ## Go standard library: `strings` -/

/-- Go `strings.HasPrefix`. -/
def HasPrefix : Text → Text → Bool
  | _, [] => true
  | [], _ :: _ => false
  | c :: s, d :: p => c == d && HasPrefix s p

/-- Go `strings.Index`: position of the first occurrence of `sep` in `s`. -/
def Index (sep : Text) : Text → Option Nat
  | [] => if HasPrefix [] sep then some 0 else none
  | c :: s =>
    if HasPrefix (c :: s) sep then some 0
    else match Index sep s with
      | some i => some (i + 1)
      | none => none

/-- Go `strings.Cut`: `(before, after, found)`. -/
def Cut (s sep : Text) : Text × Text × Bool :=
  match Index sep s with
  | some i => (s.take i, s.drop (i + sep.length), true)
  | none => (s, [], false)

/-- Go `strings.HasSuffix`. -/
def HasSuffix (s suffix : Text) : Bool :=
  decide (suffix.length ≤ s.length) && (s.drop (s.length - suffix.length) == suffix)

/-- Go `strings.CutSuffix`: `(before, found)`. -/
def CutSuffix (s suffix : Text) : Text × Bool :=
  if HasSuffix s suffix then (s.take (s.length - suffix.length), true) else (s, false)

/-- Go `unicode.IsSpace`. -/
def isSpace (c : Char) : Bool :=
  let n := c.toNat
  n == 0x09 || n == 0x0A || n == 0x0B || n == 0x0C || n == 0x0D || n == 0x20 ||
  n == 0x85 || n == 0xA0 || n == 0x1680 || (decide (0x2000 ≤ n) && decide (n ≤ 0x200A)) ||
  n == 0x2028 || n == 0x2029 || n == 0x202F || n == 0x205F || n == 0x3000

/-- Go `strings.TrimSpace`. -/
def TrimSpace (s : Text) : Text :=
  ((s.dropWhile isSpace).reverse.dropWhile isSpace).reverse

/-! ## Go standard library: `regexp` -/

/-- Syntax trees of the regular expressions used by the printer. -/
inductive Regexp where
  /-- The empty expression. -/
  | eps
  /-- Beginning of text, `^`. -/
  | bol
  /-- End of text, `$`. -/
  | eol
  /-- One literal character. -/
  | lit (c : Char)
  /-- Negated one-character class, `[^c]`. -/
  | notLit (c : Char)
  /-- Any character but a newline, `.`. -/
  | dot
  /-- Concatenation. -/
  | cat (a b : Regexp)
  /-- Alternation, `a|b`. -/
  | alt (a b : Regexp)
  /-- Zero or one, `a?`. -/
  | opt (a : Regexp)
  /-- Zero or more, `a*`. -/
  | star (a : Regexp)
  /-- One or more, `a+`. -/
  | plus (a : Regexp)

/-- Literal string. -/
def Regexp.str : Text → Regexp
  | [] => .eps
  | c :: cs => .cat (.lit c) (Regexp.str cs)

/-- Concatenation of a sequence of expressions. -/
def Regexp.seq : List Regexp → Regexp
  | [] => .eps
  | r :: rs => .cat r (Regexp.seq rs)

/-- Repetition: the remainders reachable from `s` by matching `f` zero or more times,
each round consuming at least one character; `n` bounds the number of rounds. -/
def starRests (f : Text → List Text) : Nat → Text → List Text
  | 0, s => [s]
  | n + 1, s =>
    s :: ((f s).filter (fun t => decide (t.length < s.length))).flatMap (starRests f n)

/-- The remainders of `s` after each way of matching a prefix of `s` against the
expression; `total` is the length of the whole text, at which `^` matches. -/
def Regexp.rests (total : Nat) : Regexp → Text → List Text
  | .eps, s => [s]
  | .bol, s => if s.length = total then [s] else []
  | .eol, s => if s.length = 0 then [s] else []
  | .lit _, [] => []
  | .lit c, d :: t => if d = c then [t] else []
  | .notLit _, [] => []
  | .notLit c, d :: t => if d = c then [] else [t]
  | .dot, [] => []
  | .dot, d :: t => if d = '\n' then [] else [t]
  | .cat a b, s => (Regexp.rests total a s).flatMap (fun t => Regexp.rests total b t)
  | .alt a b, s => Regexp.rests total a s ++ Regexp.rests total b s
  | .opt a, s => Regexp.rests total a s ++ [s]
  | .star a, s => starRests (fun t => Regexp.rests total a t) s.length s
  | .plus a, s =>
    (Regexp.rests total a s).flatMap
      (fun t => starRests (fun u => Regexp.rests total a u) t.length t)

/-- All suffixes of a text, longest first: the positions at which a match may start. -/
def suffixes : Text → List Text
  | [] => [[]]
  | c :: s => (c :: s) :: suffixes s

/-- Go `(*Regexp).MatchString`: does the text contain any match of the expression. -/
def Regexp.MatchString (re : Regexp) (s : Text) : Bool :=
  (suffixes s).any (fun u => !(re.rests s.length u).isEmpty)

/-! ## The scanner's records (`scanner/describe`) -/

/-- Modelled from the spec: the `Line` record of package `scanner/describe`, which is
not part of the sources at hand: one physical line split into indent, key, spacing,
value and trailing, together with the key's indentation depth. -/
structure Line where
  Indent : Text
  Key : Text
  Spacing : Text
  Value : Text
  Trailing : Text
  keyIndent : Nat

/-- Modelled from the spec: `Line.String` of package `scanner/describe`; the fields
concatenated in order give the line back. -/
def Line.String (l : Line) : Text :=
  l.Indent ++ l.Key ++ l.Spacing ++ l.Value ++ l.Trailing

/-- Modelled from the spec: `Line.KeyIndent` of package `scanner/describe`. -/
def Line.KeyIndent (l : Line) : Nat := l.keyIndent

/-- The chain of ancestor keys enclosing the current line. -/
abbrev Path := List Text

/-- Modelled from the spec: `Path.String` of package `scanner/describe`; the segments
joined by a slash. -/
def Path.String : Path → Text
  | [] => []
  | [seg] => seg
  | seg :: rest => seg ++ '/' :: Path.String rest

/-! ## `internal/bytesutil` -/

/-- Number of maximal runs of characters outside `cutset`; `inColumn` tells whether the
previous character belonged to such a run. -/
def countColumnsFrom (cutset : Text) : Bool → Text → Nat
  | _, [] => 0
  | inColumn, c :: s =>
    if cutset.contains c then countColumnsFrom cutset false s
    else (if inColumn then 0 else 1) + countColumnsFrom cutset true s

/-- Modelled from the spec: `bytesutil.CountColumns`, which is not part of the sources at
hand: the number of maximal runs of characters that are separated by characters of
`cutset`. -/
def CountColumns (b cutset : Text) : Nat :=
  countColumnsFrom cutset false b

/-! ## `printer/kubectl_describe.go` -/

/-- The status patterns,
`^Status$`,
`^(Init )?Containers/[^/]*/State(/Reason)?$`,
`^Containers/[^/]*/Last State(/Reason)?$`,
`^(Labels|Annotations)/*`,
`^(Init )?Containers/[^/]+/Environment Variables from/.+`. -/
def describePathsToColor : List Regexp :=
  [ .seq [.bol, .str "Status".toList, .eol],
    .seq [.bol, .opt (.str "Init ".toList), .str "Containers/".toList,
          .star (.notLit '/'), .str "/State".toList,
          .opt (.str "/Reason".toList), .eol],
    .seq [.bol, .str "Containers/".toList, .star (.notLit '/'),
          .str "/Last State".toList, .opt (.str "/Reason".toList), .eol],
    .seq [.bol, .alt (.str "Labels".toList) (.str "Annotations".toList),
          .star (.lit '/')],
    .seq [.bol, .opt (.str "Init ".toList), .str "Containers/".toList,
          .plus (.notLit '/'), .str "/Environment Variables from/".toList,
          .plus .dot] ]

/-- Source: `describeUseStatusColoring`. -/
def describeUseStatusColoring (path : Path) : Bool :=
  if path.length = 0 then false
  else describePathsToColor.any (fun r => r.MatchString (Path.String path))

/-- The collaborators of the printer that live in other packages. -/
structure Deps (Color : Type) where
  /-- `color.Apply`. -/
  Apply : Text → Color → Text
  /-- `ColorStatus`: the status vocabulary. -/
  ColorStatus : Text → Option Color
  /-- `getColorByValueType`. -/
  getColorByValueType : Text → Bool → Color
  /-- `getColorByKeyIndent`. -/
  getColorByKeyIndent : Nat → Nat → Bool → Color

/-- One call on the sink `w`. -/
inductive Out where
  /-- Bytes written by `fmt.Fprint`, `fmt.Fprintf`. -/
  | write (s : Text)
  /-- A call `dp.TablePrinter.Print(buf, w)`, with the buffer's content. -/
  | table (buf : Text)
  deriving DecidableEq, Repr

/-- The bytes that reach the sink, given what the table printer writes for a buffer. -/
def Out.bytes (tablePrint : Text → Text) : Out → Text
  | .write s => s
  | .table buf => tablePrint buf

/-- The content of the sink after a sequence of calls. -/
def sinkBytes (tablePrint : Text → Text) (w : List Out) : Text :=
  (w.map (Out.bytes tablePrint)).flatten

/-- Source: `DescribePrinter`; the calls on `TablePrinter` are recorded in the sink. -/
structure DescribePrinter where
  DarkBackground : Bool
  tableBytes : Option Text
  deriving DecidableEq, Repr

section Printer

variable {Color : Type} (env : Deps Color)

/-- Source: `DescribePrinter.valueColor`. -/
def DescribePrinter.valueColor (dp : DescribePrinter) (path : Path) (value : Text) : Color :=
  let value := TrimSpace value
  if describeUseStatusColoring path then
    match env.ColorStatus value with
    | some col => col
    | none => env.getColorByValueType value dp.DarkBackground
  else env.getColorByValueType value dp.DarkBackground

/-- Source: `labelOrAnnotationSeps`. -/
def labelOrAnnotationSeps : List Text := [": ".toList, "=".toList]

/-- The loop over the separators in `colorFprintLabelOrAnnotation`. -/
def DescribePrinter.colorFprintSeps (dp : DescribePrinter) (path : Path) (val : Text) :
    List Text → List Out × Bool
  | [] => ([], false)
  | sep :: seps =>
    match Cut val sep with
    | (k, v, true) =>
      let vColor := dp.valueColor env path v
      let kColor := dp.valueColor env path k
      ([.write (env.Apply k kColor ++ sep ++ env.Apply v vColor)], true)
    | (_, _, false) => DescribePrinter.colorFprintSeps dp path val seps

/-- Source: `DescribePrinter.colorFprintLabelOrAnnotation`; returns the calls made on the
sink and the boolean result. -/
def DescribePrinter.colorFprintLabelOrAnnotation (dp : DescribePrinter) (path : Path)
    (val : Text) : List Out × Bool :=
  if describeUseStatusColoring path then
    dp.colorFprintSeps env path val labelOrAnnotationSeps
  else ([], false)

/-- Source: `basicIndentWidth`. -/
def basicIndentWidth : Nat := 2

/-- The key block of the loop body of `Print`. -/
def DescribePrinter.printKey (dp : DescribePrinter) (line : Line) (path : Path) : List Out :=
  if line.Key.length > 0 then
    let keyColor := env.getColorByKeyIndent line.KeyIndent basicIndentWidth dp.DarkBackground
    let key := line.Key
    match CutSuffix key ":".toList with
    | (withoutColon, true) => [.write (env.Apply withoutColon keyColor ++ ":".toList)]
    | (_, false) =>
      match dp.colorFprintLabelOrAnnotation env path key with
      | (w, true) => w
      | (w, false) => w ++ [.write (env.Apply key keyColor)]
  else []

/-- The value block of the loop body of `Print`. -/
def DescribePrinter.printValue (dp : DescribePrinter) (line : Line) (path : Path) :
    List Out :=
  if line.Value.length > 0 then
    let val := line.Value
    let valColor := dp.valueColor env path val
    match dp.colorFprintLabelOrAnnotation env path val with
    | (w, true) => w
    | (w, false) => w ++ [.write (env.Apply val valColor)]
  else []

/-- Is the line buffered for the table printer: the test at the head of the loop body. -/
def isTableLine (line : Line) : Bool :=
  decide (CountColumns line.Value " \t".toList ≥ 3)

/-- The body of the loop of `Print`, on the printer and the calls made on the sink so
far, for one line and the scanner's path at that line. -/
def DescribePrinter.printLine (st : DescribePrinter × List Out) (x : Line × Path) :
    DescribePrinter × List Out :=
  let dp := st.1
  let w := st.2
  let line := x.1
  let path := x.2
  if isTableLine line then
    let buf := match dp.tableBytes with
      | none => []
      | some b => b
    ({ dp with tableBytes := some (buf ++ (line.String ++ ['\n'])) }, w)
  else
    let st1 : DescribePrinter × List Out := match dp.tableBytes with
      | some b => ({ dp with tableBytes := none }, w ++ [.table b])
      | none => (dp, w)
    let dp := st1.1
    let w := st1.2
    let w := w ++ [.write line.Indent]
    let w := w ++ dp.printKey env line path
    let w := w ++ [.write line.Spacing]
    let w := w ++ dp.printValue env line path
    let w := w ++ [.write (line.Trailing ++ ['\n'])]
    (dp, w)

/-- Source: `DescribePrinter.Print`, on the sequence of lines and paths the scanner
yields; returns the printer afterwards and the calls made on the sink. -/
def DescribePrinter.Print (dp : DescribePrinter) (r : List (Line × Path)) :
    DescribePrinter × List Out :=
  let st := r.foldl (DescribePrinter.printLine env) (dp, [])
  match st.1.tableBytes with
  | some b => ({ st.1 with tableBytes := none }, st.2 ++ [.table b])
  | none => st

end Printer

/-! ## Concrete collaborators, to run the printer on examples -/

/-- Collaborators with numbered colours: `Apply` wraps the text in brackets after the
colour's digit, the status vocabulary knows `Running` (1) and `Failed` (2), every value
has type colour 0, and keys are coloured 3 or 4 by depth. -/
def demoDeps : Deps Nat where
  Apply := fun s c => Char.ofNat (48 + c) :: "[".toList ++ s ++ "]".toList
  ColorStatus := fun s =>
    if s = "Running".toList then some 1 else if s = "Failed".toList then some 2 else none
  getColorByValueType := fun _ _ => 0
  getColorByKeyIndent := fun indent width _ => 3 + (indent / width) % 2

/-- Collaborators with colours disabled: `Apply` returns the text unchanged. -/
def plainDeps : Deps Unit where
  Apply := fun s _ => s
  ColorStatus := fun _ => none
  getColorByValueType := fun _ _ => ()
  getColorByKeyIndent := fun _ _ _ => ()

/-- A printer for a dark background, with no table buffer open. -/
def freshPrinter : DescribePrinter := { DarkBackground := true, tableBytes := none }

/-- The call that hands the open table buffer to the table printer, if one is open. -/
def DescribePrinter.pendingTable (dp : DescribePrinter) : List Out :=
  match dp.tableBytes with
  | some b => [.table b]
  | none => []

/-- The text of a sequence of lines, each followed by a newline. -/
def linesText (ls : List (Line × Path)) : Text :=
  (ls.map (fun x => x.1.String ++ ['\n'])).flatten

/-- The line `Name: a b`, split into the key `Name:` and the value `a b`. -/
def nameLine : Line :=
  { Indent := [], Key := "Name:".toList, Spacing := " ".toList, Value := "a b".toList,
    Trailing := [], keyIndent := 0 }

/-- The table row `  Type  Reason  Age`, all of it value. -/
def rowLine : Line :=
  { Indent := "  ".toList, Key := [], Spacing := [], Value := "Type  Reason  Age".toList,
    Trailing := [], keyIndent := 0 }

/-- The line `Status:  Running`. -/
def statusLine : Line :=
  { Indent := [], Key := "Status:".toList, Spacing := "  ".toList,
    Value := "Running".toList, Trailing := [], keyIndent := 0 }

/-- The line `Name:         my-pod`. -/
def podName : Line :=
  { Indent := [], Key := "Name:".toList, Spacing := "         ".toList,
    Value := "my-pod".toList, Trailing := [], keyIndent := 0 }

/-- The line `Labels:       app=myapp`. -/
def podLabels : Line :=
  { Indent := [], Key := "Labels:".toList, Spacing := "       ".toList,
    Value := "app=myapp".toList, Trailing := [], keyIndent := 0 }

/-- The line `Status:       Running`. -/
def podStatus : Line :=
  { Indent := [], Key := "Status:".toList, Spacing := "       ".toList,
    Value := "Running".toList, Trailing := [], keyIndent := 0 }

/-- The line `Containers:`. -/
def podContainers : Line :=
  { Indent := [], Key := "Containers:".toList, Spacing := [], Value := [],
    Trailing := [], keyIndent := 0 }

/-- The line `  my-container:`. -/
def podContainer : Line :=
  { Indent := "  ".toList, Key := "my-container:".toList, Spacing := [], Value := [],
    Trailing := [], keyIndent := 1 }

/-- The line `    State:       Running`. -/
def podState : Line :=
  { Indent := "    ".toList, Key := "State:".toList, Spacing := "       ".toList,
    Value := "Running".toList, Trailing := [], keyIndent := 2 }

/-- The six lines of the pod example, with the scanner's path at each line. -/
def podExample : List (Line × Path) :=
  [ (podName, ["Name".toList]),
    (podLabels, ["Labels".toList]),
    (podStatus, ["Status".toList]),
    (podContainers, ["Containers".toList]),
    (podContainer, ["Containers".toList, "my-container".toList]),
    (podState, ["Containers".toList, "my-container".toList, "State".toList]) ]

/-! ## Lemmas -/

theorem mem_rests_eps (n : Nat) (s t : Text) : t ∈ Regexp.eps.rests n s ↔ t = s := by
  simp [Regexp.rests]

theorem mem_rests_bol (n : Nat) (s t : Text) :
    t ∈ Regexp.bol.rests n s ↔ s.length = n ∧ t = s := by
  by_cases h : s.length = n <;> simp [Regexp.rests, h]

theorem mem_rests_eol (n : Nat) (s t : Text) :
    t ∈ Regexp.eol.rests n s ↔ s = [] ∧ t = [] := by
  cases s <;> simp [Regexp.rests]

theorem mem_rests_lit (n : Nat) (c : Char) (s t : Text) :
    t ∈ (Regexp.lit c).rests n s ↔ s = c :: t := by
  cases s with
  | nil => simp [Regexp.rests]
  | cons d u =>
    by_cases h : d = c
    · simp [Regexp.rests, h, eq_comm]
    · simp [Regexp.rests, h]

theorem mem_rests_cat (n : Nat) (a b : Regexp) (s t : Text) :
    t ∈ (Regexp.cat a b).rests n s ↔ ∃ u, u ∈ a.rests n s ∧ t ∈ b.rests n u := by
  simp [Regexp.rests, List.mem_flatMap]

theorem mem_rests_alt (n : Nat) (a b : Regexp) (s t : Text) :
    t ∈ (Regexp.alt a b).rests n s ↔ t ∈ a.rests n s ∨ t ∈ b.rests n s := by
  simp [Regexp.rests]

theorem mem_rests_opt (n : Nat) (a : Regexp) (s t : Text) :
    t ∈ (Regexp.opt a).rests n s ↔ t ∈ a.rests n s ∨ t = s := by
  simp [Regexp.rests]

theorem mem_rests_str (n : Nat) (w s t : Text) :
    t ∈ (Regexp.str w).rests n s ↔ s = w ++ t := by
  induction w generalizing s with
  | nil => simp [Regexp.str, mem_rests_eps, eq_comm]
  | cons c cs ih =>
    simp only [Regexp.str, mem_rests_cat, mem_rests_lit, ih]
    constructor
    · rintro ⟨u, rfl, rfl⟩; rfl
    · intro h; exact ⟨cs ++ t, h, rfl⟩

theorem mem_rests_seq_nil (n : Nat) (s t : Text) :
    t ∈ (Regexp.seq []).rests n s ↔ t = s := by
  simp [Regexp.seq, mem_rests_eps]

theorem mem_rests_seq_cons (n : Nat) (r : Regexp) (rs : List Regexp) (s t : Text) :
    t ∈ (Regexp.seq (r :: rs)).rests n s ↔
      ∃ u, u ∈ r.rests n s ∧ t ∈ (Regexp.seq rs).rests n u := by
  simp [Regexp.seq, mem_rests_cat]

/-- Repetition of a one-character class: the remainders are reached by dropping a prefix
all of whose characters belong to the class. -/
theorem mem_starRests_class (f : Text → List Text) (p : Char → Bool)
    (hnil : f [] = []) (hcons : ∀ d u, f (d :: u) = if p d then [u] else [])
    (k : Nat) (s t : Text) (hk : s.length ≤ k) :
    t ∈ starRests f k s ↔ ∃ w, s = w ++ t ∧ ∀ x ∈ w, p x = true := by
  induction k generalizing s with
  | zero =>
    have hs : s = [] := List.length_eq_zero.mp (Nat.le_zero.mp hk)
    subst hs
    simp only [starRests, List.mem_singleton]
    constructor
    · rintro rfl; exact ⟨[], rfl, by simp⟩
    · rintro ⟨w, hw, _⟩
      exact (List.append_eq_nil.mp hw.symm).2
  | succ k ih =>
    cases s with
    | nil =>
      simp only [starRests, hnil, List.filter_nil, List.flatMap_nil, List.mem_singleton]
      constructor
      · rintro rfl; exact ⟨[], rfl, by simp⟩
      · rintro ⟨w, hw, _⟩
        exact (List.append_eq_nil.mp hw.symm).2
    | cons d u =>
      have hu : u.length ≤ k := by simpa using hk
      simp only [starRests, hcons, List.mem_cons]
      by_cases hp : p d = true
      · simp only [hp, if_true, List.filter_cons, List.length_cons, Nat.lt_succ_self,
          decide_True, List.filter_nil, List.flatMap_cons, List.flatMap_nil, List.append_nil,
          ih u hu]
        constructor
        · rintro (rfl | ⟨w, rfl, hw⟩)
          · exact ⟨[], rfl, by simp⟩
          · exact ⟨d :: w, rfl, by
              intro x hx
              rcases List.mem_cons.mp hx with rfl | hx
              · exact hp
              · exact hw x hx⟩
        · rintro ⟨w, hw, hall⟩
          cases w with
          | nil => left; simpa using hw.symm
          | cons e w =>
            right
            simp only [List.cons_append, List.cons.injEq] at hw
            exact ⟨w, hw.2, fun x hx => hall x (List.mem_cons_of_mem _ hx)⟩
      · simp only [hp, List.filter_nil, List.flatMap_nil, List.not_mem_nil, or_false]
        simp only [Bool.false_eq_true, if_false, List.filter_nil, List.flatMap_nil,
          List.not_mem_nil, or_false]
        constructor
        · rintro rfl; exact ⟨[], rfl, by simp⟩
        · rintro ⟨w, hw, hall⟩
          cases w with
          | nil => simpa using hw.symm
          | cons e w =>
            simp only [List.cons_append, List.cons.injEq] at hw
            have := hall e (List.mem_cons_self _ _)
            rw [← hw.1] at this
            exact absurd this hp
theorem mem_rests_star_notLit (n : Nat) (c : Char) (s t : Text) :
    t ∈ (Regexp.star (.notLit c)).rests n s ↔ ∃ w, s = w ++ t ∧ c ∉ w := by
  have h := mem_starRests_class (fun u => (Regexp.notLit c).rests n u) (fun d => !decide (d = c))
    rfl (by intro d u; by_cases hd : d = c <;> simp [Regexp.rests, hd]) s.length s t
    (Nat.le_refl _)
  simp only [Regexp.rests, h]
  constructor
  · rintro ⟨w, hw, hall⟩
    exact ⟨w, hw, fun hc => by simpa using hall c hc⟩
  · rintro ⟨w, hw, hc⟩
    exact ⟨w, hw, fun x hx => by
      have : x ≠ c := fun h => hc (h ▸ hx)
      simpa using this⟩

theorem mem_suffixes (s u : Text) : u ∈ suffixes s ↔ u <:+ s := by
  induction s with
  | nil => simp [suffixes]
  | cons c s ih =>
    simp only [suffixes, List.mem_cons, ih, List.suffix_cons_iff]

/-- An expression that starts with `^` can only match at the start of the text. -/
theorem matchString_bol (rs : List Regexp) (s : Text) :
    (Regexp.seq (.bol :: rs)).MatchString s = true ↔
      ∃ t, t ∈ (Regexp.seq rs).rests s.length s := by
  simp only [Regexp.MatchString, List.any_eq_true, Bool.not_eq_true', mem_suffixes]
  constructor
  · rintro ⟨u, hu, hne⟩
    cases hr : (Regexp.seq (.bol :: rs)).rests s.length u with
    | nil => simp [hr] at hne
    | cons t ts =>
      have ht : t ∈ (Regexp.seq (.bol :: rs)).rests s.length u := by simp [hr]
      rw [mem_rests_seq_cons] at ht
      obtain ⟨v, hv, ht⟩ := ht
      rw [mem_rests_bol] at hv
      obtain ⟨hlen, rfl⟩ := hv
      have : v = s := hu.eq_of_length hlen
      subst this
      exact ⟨t, ht⟩
  · rintro ⟨t, ht⟩
    refine ⟨s, List.suffix_refl s, ?_⟩
    have h : t ∈ (Regexp.seq (.bol :: rs)).rests s.length s := by
      rw [mem_rests_seq_cons]
      exact ⟨s, (mem_rests_bol _ _ _).mpr ⟨rfl, rfl⟩, ht⟩
    cases hr : (Regexp.seq (.bol :: rs)).rests s.length s with
    | nil => simp [hr] at h
    | cons _ _ => rfl

theorem mem_rests_seq_one (n : Nat) (r : Regexp) (s t : Text) :
    t ∈ (Regexp.seq [r]).rests n s ↔ t ∈ r.rests n s := by
  simp [mem_rests_seq_cons, mem_rests_seq_nil]

/-- The five status patterns, each read as a condition on the joined path. -/
theorem describeUseStatusColoring_iff (path : Path) :
    describeUseStatusColoring path = true ↔
      path ≠ [] ∧
      ((Path.String path = "Status".toList) ∨
       (∃ pre c suf, Path.String path =
            pre ++ ("Containers/".toList ++ (c ++ ("/State".toList ++ suf))) ∧
          (pre = "Init ".toList ∨ pre = []) ∧ '/' ∉ c ∧
          (suf = "/Reason".toList ∨ suf = [])) ∨
       (∃ c suf, Path.String path =
            "Containers/".toList ++ (c ++ ("/Last State".toList ++ suf)) ∧
          '/' ∉ c ∧ (suf = "/Reason".toList ∨ suf = [])) ∨
       (∃ t, t ∈ (Regexp.seq [.alt (.str "Labels".toList) (.str "Annotations".toList),
          .star (.lit '/')]).rests (Path.String path).length (Path.String path)) ∨
       (∃ t, t ∈ (Regexp.seq [.opt (.str "Init ".toList), .str "Containers/".toList,
          .plus (.notLit '/'), .str "/Environment Variables from/".toList,
          .plus .dot]).rests (Path.String path).length (Path.String path))) := by
  unfold describeUseStatusColoring
  cases path with
  | nil => simp
  | cons seg rest =>
    simp only [List.length_cons, Nat.succ_ne_zero, if_false, ne_eq, not_false_eq_true,
      true_and, describePathsToColor, List.any_cons, List.any_nil, Bool.or_false,
      Bool.or_eq_true, matchString_bol, reduceCtorEq]
    generalize Path.String (seg :: rest) = s
    apply or_congr
    · simp only [mem_rests_seq_cons, mem_rests_seq_nil, mem_rests_str, mem_rests_eol]
      constructor
      · rintro ⟨t, u, rfl, v, ⟨rfl, rfl⟩, _⟩; simp
      · rintro rfl; exact ⟨[], [], by simp, [], ⟨rfl, rfl⟩, rfl⟩
    apply or_congr
    · simp only [mem_rests_seq_cons, mem_rests_seq_nil, mem_rests_str, mem_rests_eol,
        mem_rests_opt, mem_rests_star_notLit]
      constructor
      · rintro ⟨t, u1, h1, u2, h2, u3, ⟨c, h3, hc⟩, u4, h4, u5, h5, u6, ⟨h6, _⟩, _⟩
        subst h6
        refine ⟨if u1 = s then [] else "Init ".toList, c, u4, ?_, ?_, hc, ?_⟩
        · rcases h1 with h1 | rfl
          · subst h1; subst h2; subst h3; subst h4
            simp
          · subst h2; subst h3; subst h4
            simp
        · by_cases h : u1 = s <;> simp [h]
        · rcases h5 with h5 | h5
          · left; simpa using h5
          · right; exact h5.symm
      · rintro ⟨pre, c, suf, hs, hpre, hc, hsuf⟩
        refine ⟨[], "Containers/".toList ++ (c ++ ("/State".toList ++ suf)), ?_,
          c ++ ("/State".toList ++ suf), rfl, "/State".toList ++ suf, ⟨c, rfl, hc⟩,
          suf, rfl, [], ?_, [], ⟨rfl, rfl⟩, rfl⟩
        · rcases hpre with rfl | rfl
          · left; exact hs
          · right; simpa using hs.symm
        · rcases hsuf with rfl | rfl
          · left; simp
          · right; rfl
    apply or_congr
    · simp only [mem_rests_seq_cons, mem_rests_seq_nil, mem_rests_str, mem_rests_eol,
        mem_rests_opt, mem_rests_star_notLit]
      constructor
      · rintro ⟨t, u2, h2, u3, ⟨c, h3, hc⟩, u4, h4, u5, h5, u6, ⟨h6, _⟩, _⟩
        subst h6
        refine ⟨c, u4, ?_, hc, ?_⟩
        · subst h2; subst h3; subst h4; rfl
        · rcases h5 with h5 | h5
          · left; simpa using h5
          · right; exact h5.symm
      · rintro ⟨c, suf, hs, hc, hsuf⟩
        refine ⟨[], c ++ ("/Last State".toList ++ suf), hs, "/Last State".toList ++ suf,
          ⟨c, rfl, hc⟩, suf, rfl, [], ?_, [], ⟨rfl, rfl⟩, rfl⟩
        rcases hsuf with rfl | rfl
        · left; simp
        · right; rfl
    exact Iff.rfl

theorem pathString_cons (seg : Text) (rest : Path) :
    Path.String (seg :: rest) = seg ∨
      ∃ tail, Path.String (seg :: rest) = seg ++ '/' :: tail := by
  cases rest with
  | nil => left; rfl
  | cons r rs => right; exact ⟨Path.String (r :: rs), rfl⟩

/-- A word without a slash that starts the joined path starts its first segment. -/
theorem prefix_first_segment (w seg : Text) (rest : Path) (hw : '/' ∉ w)
    (h : w <+: Path.String (seg :: rest)) : w <+: seg := by
  rcases pathString_cons seg rest with h1 | ⟨tail, h1⟩
  · rw [h1] at h; exact h
  · rw [h1] at h
    by_cases hlen : w.length ≤ seg.length
    · exact List.prefix_of_prefix_length_le h (List.prefix_append _ _) hlen
    · exfalso
      have hsw : seg <+: w :=
        List.prefix_of_prefix_length_le (List.prefix_append _ _) h (by omega)
      obtain ⟨x, rfl⟩ := hsw
      have hx : x <+: '/' :: tail := (List.prefix_append_right_inj seg).mp h
      cases x with
      | nil => simp at hlen
      | cons e x =>
        have he : e = '/' := by
          obtain ⟨y, hy⟩ := hx
          simp only [List.cons_append, List.cons.injEq] at hy
          exact hy.1
        exact hw (by simp [he])

/-- The words one of which starts every joined path that matches a status pattern. -/
theorem status_path_head (path : Path) (h : describeUseStatusColoring path = true) :
    "Status".toList <+: Path.String path ∨ "Containers".toList <+: Path.String path ∨
    "Init Containers".toList <+: Path.String path ∨ "Labels".toList <+: Path.String path ∨
    "Annotations".toList <+: Path.String path := by
  rw [describeUseStatusColoring_iff] at h
  obtain ⟨_, h⟩ := h
  generalize Path.String path = s at h
  rcases h with h | ⟨pre, c, suf, hs, hpre, _, _⟩ | ⟨c, suf, hs, _, _⟩ | ⟨t, ht⟩ | ⟨t, ht⟩
  · left; rw [h]
  · rcases hpre with rfl | rfl
    · right; right; left
      exact ⟨'/' :: (c ++ ("/State".toList ++ suf)), by rw [hs]; rfl⟩
    · right; left
      exact ⟨'/' :: (c ++ ("/State".toList ++ suf)), by rw [hs]; rfl⟩
  · right; left
    exact ⟨'/' :: (c ++ ("/Last State".toList ++ suf)), by rw [hs]; rfl⟩
  · simp only [mem_rests_seq_cons, mem_rests_alt, mem_rests_str] at ht
    obtain ⟨u, hu, _⟩ := ht
    rcases hu with hu | hu
    · right; right; right; left; exact ⟨u, hu.symm⟩
    · right; right; right; right; exact ⟨u, hu.symm⟩
  · simp only [mem_rests_seq_cons, mem_rests_opt, mem_rests_str] at ht
    obtain ⟨u1, h1, u2, h2, _⟩ := ht
    rcases h1 with h1 | rfl
    · right; right; left
      exact ⟨'/' :: u2, by rw [h1, h2]; rfl⟩
    · right; left
      exact ⟨'/' :: u2, by rw [h2]; rfl⟩

/-- Repetition may stop at once. -/
theorem self_mem_starRests (f : Text → List Text) (n : Nat) (s : Text) :
    s ∈ starRests f n s := by
  cases n <;> simp [starRests]

theorem mem_rests_notLit (n : Nat) (c : Char) (s t : Text) :
    t ∈ (Regexp.notLit c).rests n s ↔ ∃ d, d ≠ c ∧ s = d :: t := by
  cases s with
  | nil => simp [Regexp.rests]
  | cons e u =>
    by_cases h : e = c
    · subst h
      simp only [Regexp.rests, if_true, List.not_mem_nil, false_iff, not_exists, not_and,
        List.cons.injEq]
      intro d hd hde _
      exact hd hde.symm
    · simp only [Regexp.rests, h, if_false, List.mem_singleton, List.cons.injEq]
      constructor
      · rintro rfl; exact ⟨e, h, rfl, rfl⟩
      · rintro ⟨d, _, _, rfl⟩; rfl

theorem mem_rests_plus_notLit (n : Nat) (c : Char) (s t : Text) :
    t ∈ (Regexp.plus (.notLit c)).rests n s ↔ ∃ w, w ≠ [] ∧ s = w ++ t ∧ c ∉ w := by
  have hstar : ∀ u, t ∈ starRests (fun v => (Regexp.notLit c).rests n v) u.length u ↔
      ∃ w, u = w ++ t ∧ c ∉ w := by
    intro u
    have h := mem_rests_star_notLit n c u t
    simpa only [Regexp.rests] using h
  simp only [Regexp.rests, List.mem_flatMap, hstar]
  constructor
  · rintro ⟨u, hu, w, rfl, hw⟩
    obtain ⟨d, hd, rfl⟩ := (mem_rests_notLit n c s (w ++ t)).mp hu
    refine ⟨d :: w, by simp, rfl, ?_⟩
    simp only [List.mem_cons, not_or]
    exact ⟨fun h => hd h.symm, hw⟩
  · rintro ⟨w, hne, rfl, hw⟩
    cases w with
    | nil => exact absurd rfl hne
    | cons d w =>
      simp only [List.mem_cons, not_or] at hw
      exact ⟨w ++ t, (mem_rests_notLit n c _ _).mpr ⟨d, fun h => hw.1 h.symm, rfl⟩,
        w, rfl, hw.2⟩

/-- The expression `.+` matches some prefix exactly when the text starts with a character
other than a newline. -/
theorem exists_rests_plus_dot (n : Nat) (s : Text) :
    (∃ t, t ∈ (Regexp.plus .dot).rests n s) ↔ ∃ d u, s = d :: u ∧ d ≠ '\n' := by
  cases s with
  | nil => simp [Regexp.rests]
  | cons e u =>
    by_cases h : e = '\n'
    · subst h; simp [Regexp.rests]
    · simp only [Regexp.rests, h, if_false, List.flatMap_cons, List.flatMap_nil,
        List.append_nil, List.cons.injEq, ne_eq]
      constructor
      · intro _; exact ⟨e, u, ⟨rfl, rfl⟩, h⟩
      · intro _; exact ⟨u, self_mem_starRests _ _ _⟩

/-- The fourth status pattern: the text begins with `Labels` or with `Annotations`. -/
theorem labels_pattern_iff (n : Nat) (s : Text) :
    (∃ t, t ∈ (Regexp.seq [.alt (.str "Labels".toList) (.str "Annotations".toList),
        .star (.lit '/')]).rests n s) ↔
      "Labels".toList <+: s ∨ "Annotations".toList <+: s := by
  simp only [mem_rests_seq_cons, mem_rests_seq_nil, mem_rests_alt, mem_rests_str]
  constructor
  · rintro ⟨t, u, hu, _⟩
    rcases hu with hu | hu
    · left; exact ⟨u, hu.symm⟩
    · right; exact ⟨u, hu.symm⟩
  · rintro (⟨u, hu⟩ | ⟨u, hu⟩)
    · exact ⟨u, u, Or.inl hu.symm, u, by simp only [Regexp.rests]; exact self_mem_starRests _ _ _,
        rfl⟩
    · exact ⟨u, u, Or.inr hu.symm, u, by simp only [Regexp.rests]; exact self_mem_starRests _ _ _,
        rfl⟩

/-- The fifth status pattern: `Containers/` or `Init Containers/`, a non-empty segment
without a slash, `/Environment Variables from/`, and then a character other than a
newline. -/
theorem envFrom_pattern_iff (n : Nat) (s : Text) :
    (∃ t, t ∈ (Regexp.seq [.opt (.str "Init ".toList), .str "Containers/".toList,
        .plus (.notLit '/'), .str "/Environment Variables from/".toList,
        .plus .dot]).rests n s) ↔
      ∃ pre c d u, s = pre ++ ("Containers/".toList ++
            (c ++ ("/Environment Variables from/".toList ++ d :: u))) ∧
        (pre = "Init ".toList ∨ pre = []) ∧ c ≠ [] ∧ '/' ∉ c ∧ d ≠ '\n' := by
  constructor
  · rintro ⟨t, ht⟩
    simp only [mem_rests_seq_cons, mem_rests_seq_nil, mem_rests_opt, mem_rests_str,
      mem_rests_plus_notLit] at ht
    obtain ⟨u1, h1, u2, h2, u3, ⟨c, hc, h3, hslash⟩, u4, h4, u5, h5, h6⟩ := ht
    subst h6
    obtain ⟨d, u, hdu, hd⟩ := (exists_rests_plus_dot n u4).mp ⟨_, h5⟩
    refine ⟨if u1 = s then [] else "Init ".toList, c, d, u, ?_, ?_, hc, hslash, hd⟩
    · rcases h1 with h1 | rfl
      · subst h1; subst h2; subst h3; subst h4; subst hdu
        simp
      · subst h2; subst h3; subst h4; subst hdu
        simp
    · by_cases h : u1 = s <;> simp [h]
  · rintro ⟨pre, c, d, u, hs, hpre, hc, hslash, hd⟩
    obtain ⟨t, ht⟩ := (exists_rests_plus_dot n (d :: u)).mpr ⟨d, u, rfl, hd⟩
    refine ⟨t, ?_⟩
    simp only [mem_rests_seq_cons, mem_rests_seq_nil, mem_rests_opt, mem_rests_str,
      mem_rests_plus_notLit]
    refine ⟨"Containers/".toList ++ (c ++ ("/Environment Variables from/".toList ++ d :: u)),
      ?_, c ++ ("/Environment Variables from/".toList ++ d :: u), rfl,
      "/Environment Variables from/".toList ++ d :: u, ⟨c, hc, rfl, hslash⟩,
      d :: u, rfl, t, ht, rfl⟩
    rcases hpre with rfl | rfl
    · left; exact hs
    · right; simpa using hs.symm

/-- A text is cut at its first slash in one way only. -/
theorem first_slash_unique (c c2 a b : Text) (hc : '/' ∉ c) (hc2 : '/' ∉ c2)
    (h : c ++ '/' :: a = c2 ++ '/' :: b) : c = c2 ∧ a = b := by
  induction c generalizing c2 with
  | nil =>
    cases c2 with
    | nil => simpa using h
    | cons e c2 =>
      simp only [List.nil_append, List.cons_append, List.cons.injEq] at h
      exact absurd (by simp [← h.1]) hc2
  | cons d c ih =>
    cases c2 with
    | nil =>
      simp only [List.nil_append, List.cons_append, List.cons.injEq] at h
      exact absurd (by simp [h.1]) hc
    | cons e c2 =>
      simp only [List.cons_append, List.cons.injEq] at h
      simp only [List.mem_cons, not_or] at hc hc2
      obtain ⟨h1, h2⟩ := ih c2 hc.2 hc2.2 h.2
      exact ⟨by rw [h.1, h1], h2⟩

theorem pathString_cons_cons (seg r : Text) (rs : Path) :
    Path.String (seg :: r :: rs) = seg ++ '/' :: Path.String (r :: rs) := rfl

theorem pathString_cons_of_ne (seg : Text) (rest : Path) (h : rest ≠ []) :
    Path.String (seg :: rest) = seg ++ '/' :: Path.String rest := by
  cases rest with
  | nil => exact absurd rfl h
  | cons r rs => rfl

/-- The five status patterns, each read as a condition on the joined path. -/
theorem describeUseStatusColoring_shape (path : Path) :
    describeUseStatusColoring path = true ↔
      path ≠ [] ∧
      ((Path.String path = "Status".toList) ∨
       (∃ pre c suf, Path.String path =
            pre ++ ("Containers/".toList ++ (c ++ ("/State".toList ++ suf))) ∧
          (pre = "Init ".toList ∨ pre = []) ∧ '/' ∉ c ∧
          (suf = "/Reason".toList ∨ suf = [])) ∨
       (∃ c suf, Path.String path =
            "Containers/".toList ++ (c ++ ("/Last State".toList ++ suf)) ∧
          '/' ∉ c ∧ (suf = "/Reason".toList ∨ suf = [])) ∨
       ("Labels".toList <+: Path.String path ∨ "Annotations".toList <+: Path.String path) ∨
       (∃ pre c d u, Path.String path = pre ++ ("Containers/".toList ++
            (c ++ ("/Environment Variables from/".toList ++ d :: u))) ∧
          (pre = "Init ".toList ∨ pre = []) ∧ c ≠ [] ∧ '/' ∉ c ∧ d ≠ '\n')) := by
  rw [describeUseStatusColoring_iff, labels_pattern_iff, envFrom_pattern_iff]

/-! ### Cutting strings -/

theorem HasPrefix_iff (s p : Text) : HasPrefix s p = true ↔ p <+: s := by
  induction p generalizing s with
  | nil => cases s <;> simp [HasPrefix]
  | cons d p ih =>
    cases s with
    | nil => simp [HasPrefix]
    | cons c s =>
      simp only [HasPrefix, Bool.and_eq_true, beq_iff_eq, ih, List.cons_prefix_cons]
      constructor
      · rintro ⟨rfl, h⟩; exact ⟨rfl, h⟩
      · rintro ⟨rfl, h⟩; exact ⟨rfl, h⟩

/-- At the position `Index` returns, the separator starts. -/
theorem Index_some_prefix (sep s : Text) (i : Nat) (h : Index sep s = some i) :
    i ≤ s.length ∧ sep <+: s.drop i := by
  induction s generalizing i with
  | nil =>
    simp only [Index] at h
    split at h
    · rename_i hp
      simp only [Option.some.injEq] at h
      subst h
      exact ⟨Nat.le_refl _, (HasPrefix_iff _ _).mp hp⟩
    · simp at h
  | cons c s ih =>
    simp only [Index] at h
    split at h
    · rename_i hp
      simp only [Option.some.injEq] at h
      subst h
      exact ⟨Nat.zero_le _, (HasPrefix_iff _ _).mp hp⟩
    · cases hj : Index sep s with
      | none => simp [hj] at h
      | some j =>
        simp only [hj, Option.some.injEq] at h
        subst h
        obtain ⟨h1, h2⟩ := ih j hj
        exact ⟨by simpa using h1, by simpa using h2⟩

/-- What `Cut` returns when it finds the separator gives the text back. -/
theorem Cut_found (s sep k v : Text) (h : Cut s sep = (k, v, true)) : s = k ++ sep ++ v := by
  unfold Cut at h
  cases hi : Index sep s with
  | none => simp [hi] at h
  | some i =>
    simp only [hi, Prod.mk.injEq, and_true] at h
    obtain ⟨rfl, rfl⟩ := h
    obtain ⟨_, t, ht⟩ := Index_some_prefix sep s i hi
    have hd : s.drop (i + sep.length) = t := by
      rw [← List.drop_drop, ← ht]
      simp
    rw [hd, List.append_assoc, ht, List.take_append_drop]

/-- When `Cut` does not find the separator it returns the text. -/
theorem Cut_not_found (s sep k v : Text) (h : Cut s sep = (k, v, false)) : k = s ∧ v = [] := by
  unfold Cut at h
  cases hi : Index sep s with
  | none =>
    simp only [hi, Prod.mk.injEq, and_true] at h
    exact ⟨h.1.symm, h.2.symm⟩
  | some i => simp [hi] at h

/-- The position `Index` returns is that of the first occurrence. -/
theorem Index_first (sep l r : Text)
    (hmin : ∀ l2 r2, l ++ sep ++ r = l2 ++ sep ++ r2 → l.length ≤ l2.length) :
    Index sep (l ++ sep ++ r) = some l.length := by
  induction l with
  | nil =>
    have hp : HasPrefix ([] ++ sep ++ r) sep = true :=
      (HasPrefix_iff _ _).mpr ⟨r, by simp⟩
    cases hs : [] ++ sep ++ r with
    | nil => rw [hs] at hp; simp [Index, hp]
    | cons c s => rw [hs] at hp; simp [Index, hp]
  | cons c l ih =>
    have hnp : HasPrefix (c :: l ++ sep ++ r) sep = false := by
      cases hp : HasPrefix (c :: l ++ sep ++ r) sep with
      | false => rfl
      | true =>
        obtain ⟨t, ht⟩ := (HasPrefix_iff _ _).mp hp
        have := hmin [] t (by simpa using ht.symm)
        simp at this
    have hrec := ih (fun l2 r2 h2 => by
      have := hmin (c :: l2) r2 (by simp only [List.cons_append, h2])
      simpa using this)
    simp only [List.cons_append] at hnp ⊢
    simp only [Index, hnp, Bool.false_eq_true, if_false, hrec, List.length_cons]

/-- `Cut` splits at the first occurrence of the separator. -/
theorem Cut_first (sep l r : Text)
    (hmin : ∀ l2 r2, l ++ sep ++ r = l2 ++ sep ++ r2 → l.length ≤ l2.length) :
    Cut (l ++ sep ++ r) sep = (l, r, true) := by
  unfold Cut
  rw [Index_first sep l r hmin]
  simp [List.append_assoc, List.take_append_eq_append_take, List.drop_append_eq_append_drop]

/-- Without an occurrence of the separator `Index` finds nothing. -/
theorem Index_none (sep s : Text) (h : ¬ sep <:+: s) : Index sep s = none := by
  cases hi : Index sep s with
  | none => rfl
  | some i =>
    exfalso
    obtain ⟨_, t, ht⟩ := Index_some_prefix sep s i hi
    exact h ⟨s.take i, t, by rw [List.append_assoc, ht, List.take_append_drop]⟩

theorem Cut_none (sep s : Text) (h : ¬ sep <:+: s) : Cut s sep = (s, [], false) := by
  unfold Cut
  rw [Index_none sep s h]

/-! ### Column counting -/

theorem countColumnsFrom_cons_mem (cutset : Text) (b : Bool) (c : Char) (s : Text)
    (h : c ∈ cutset) :
    countColumnsFrom cutset b (c :: s) = countColumnsFrom cutset false s := by
  simp [countColumnsFrom, h]

theorem countColumnsFrom_cons_not_mem (cutset : Text) (b : Bool) (c : Char) (s : Text)
    (h : c ∉ cutset) :
    countColumnsFrom cutset b (c :: s) =
      (if b = true then 0 else 1) + countColumnsFrom cutset true s := by
  simp [countColumnsFrom, h]

theorem countColumnsFrom_true_le (cutset : Text) (s : Text) :
    countColumnsFrom cutset true s ≤ countColumnsFrom cutset false s := by
  cases s with
  | nil => simp [countColumnsFrom]
  | cons c s =>
    by_cases h : c ∈ cutset
    · rw [countColumnsFrom_cons_mem _ _ _ _ h, countColumnsFrom_cons_mem _ _ _ _ h]
    · rw [countColumnsFrom_cons_not_mem _ _ _ _ h, countColumnsFrom_cons_not_mem _ _ _ _ h]
      simp

theorem countColumnsFrom_false_le (cutset : Text) (s : Text) :
    countColumnsFrom cutset false s ≤ countColumnsFrom cutset true s + 1 := by
  cases s with
  | nil => simp [countColumnsFrom]
  | cons c s =>
    by_cases h : c ∈ cutset
    · rw [countColumnsFrom_cons_mem _ _ _ _ h, countColumnsFrom_cons_mem _ _ _ _ h]
      omega
    · rw [countColumnsFrom_cons_not_mem _ _ _ _ h, countColumnsFrom_cons_not_mem _ _ _ _ h]
      simp
      omega

theorem countColumnsFrom_append_right (cutset : Text) (b : Bool) (s post : Text) :
    countColumnsFrom cutset b s ≤ countColumnsFrom cutset b (s ++ post) := by
  induction s generalizing b with
  | nil => simp [countColumnsFrom]
  | cons c s ih =>
    rw [List.cons_append]
    by_cases h : c ∈ cutset
    · rw [countColumnsFrom_cons_mem _ _ _ _ h, countColumnsFrom_cons_mem _ _ _ _ h]
      exact ih false
    · rw [countColumnsFrom_cons_not_mem _ _ _ _ h, countColumnsFrom_cons_not_mem _ _ _ _ h]
      exact Nat.add_le_add_left (ih true) _

theorem countColumnsFrom_append_left (cutset : Text) (b : Bool) (pre s : Text) :
    countColumnsFrom cutset b s ≤ countColumnsFrom cutset b (pre ++ s) := by
  induction pre generalizing b with
  | nil => simp
  | cons c pre ih =>
    rw [List.cons_append]
    have h1 := countColumnsFrom_true_le cutset s
    have h2 := countColumnsFrom_false_le cutset s
    have h3 := ih false
    have h4 := ih true
    by_cases h : c ∈ cutset
    · rw [countColumnsFrom_cons_mem _ _ _ _ h]
      cases b <;> omega
    · rw [countColumnsFrom_cons_not_mem _ _ _ _ h]
      cases b <;> simp <;> omega

/-- A part of a text has no more columns than the whole text. -/
theorem CountColumns_infix (cutset pre s post : Text) :
    CountColumns s cutset ≤ CountColumns (pre ++ s ++ post) cutset := by
  unfold CountColumns
  rw [List.append_assoc]
  exact Nat.le_trans (countColumnsFrom_append_right cutset false s post)
    (countColumnsFrom_append_left cutset false pre (s ++ post))

/-- The value of a line has no more columns than the line. -/
theorem CountColumns_value_le (cutset : Text) (l : Line) :
    CountColumns l.Value cutset ≤ CountColumns l.String cutset := by
  have h := CountColumns_infix cutset (l.Indent ++ l.Key ++ l.Spacing) l.Value l.Trailing
  simpa [Line.String, List.append_assoc] using h

/-! ### The loop body -/

theorem printKey_tableBytes {Color : Type} (env : Deps Color) (dp : DescribePrinter)
    (t : Option Text) (line : Line) (path : Path) :
    DescribePrinter.printKey env { dp with tableBytes := t } line path =
      dp.printKey env line path := rfl

theorem printValue_tableBytes {Color : Type} (env : Deps Color) (dp : DescribePrinter)
    (t : Option Text) (line : Line) (path : Path) :
    DescribePrinter.printValue env { dp with tableBytes := t } line path =
      dp.printValue env line path := rfl

/-- The loop body on a line that passes the column test. -/
theorem printLine_of_table {Color : Type} (env : Deps Color)
    (st : DescribePrinter × List Out) (x : Line × Path) (h : isTableLine x.1 = true) :
    DescribePrinter.printLine env st x =
      (⟨st.1.DarkBackground,
          some (st.1.tableBytes.getD [] ++ (x.1.String ++ ['\n']))⟩, st.2) := by
  unfold DescribePrinter.printLine
  simp only [h, if_true]
  cases st.1.tableBytes <;> rfl

/-- The loop body on a line that fails the column test. -/
theorem printLine_of_plain {Color : Type} (env : Deps Color)
    (st : DescribePrinter × List Out) (x : Line × Path) (h : isTableLine x.1 = false) :
    DescribePrinter.printLine env st x =
      (⟨st.1.DarkBackground, none⟩,
        st.2 ++ st.1.pendingTable ++ [.write x.1.Indent] ++ st.1.printKey env x.1 x.2 ++
          [.write x.1.Spacing] ++ st.1.printValue env x.1 x.2 ++
          [.write (x.1.Trailing ++ ['\n'])]) := by
  unfold DescribePrinter.printLine
  simp only [h, Bool.false_eq_true, if_false, DescribePrinter.pendingTable]
  obtain ⟨dp, w⟩ := st
  obtain ⟨dark, tb⟩ := dp
  cases tb <;> simp [DescribePrinter.printKey, DescribePrinter.printValue,
    DescribePrinter.colorFprintLabelOrAnnotation, DescribePrinter.valueColor,
    DescribePrinter.colorFprintSeps]

theorem CutSuffix_append (k suffix : Text) : CutSuffix (k ++ suffix) suffix = (k, true) := by
  simp [CutSuffix, HasSuffix]

theorem sinkBytes_append (tp : Text → Text) (a b : List Out) :
    sinkBytes tp (a ++ b) = sinkBytes tp a ++ sinkBytes tp b := by
  simp [sinkBytes]

theorem sinkBytes_write (tp : Text → Text) (s : Text) : sinkBytes tp [.write s] = s := by
  simp [sinkBytes, Out.bytes]

theorem sinkBytes_table (tp : Text → Text) (b : Text) : sinkBytes tp [.table b] = tp b := by
  simp [sinkBytes, Out.bytes]

theorem sinkBytes_nil (tp : Text → Text) : sinkBytes tp [] = [] := rfl

/-! ### The loop -/

theorem printLine_dark {Color : Type} (env : Deps Color) (st : DescribePrinter × List Out)
    (x : Line × Path) :
    (DescribePrinter.printLine env st x).1.DarkBackground = st.1.DarkBackground := by
  cases h : isTableLine x.1 with
  | true => rw [printLine_of_table env st x h]
  | false => rw [printLine_of_plain env st x h]

/-- The loop body only appends to the calls already made on the sink. -/
theorem printLine_sink {Color : Type} (env : Deps Color) (dp : DescribePrinter)
    (w : List Out) (x : Line × Path) :
    DescribePrinter.printLine env (dp, w) x =
      ((DescribePrinter.printLine env (dp, []) x).1,
        w ++ (DescribePrinter.printLine env (dp, []) x).2) := by
  cases h : isTableLine x.1 with
  | true => simp [printLine_of_table env _ x h]
  | false => simp [printLine_of_plain env _ x h]

/-- The loop only appends to the calls already made on the sink. -/
theorem foldl_printLine_sink {Color : Type} (env : Deps Color) (ls : List (Line × Path))
    (dp : DescribePrinter) (w : List Out) :
    ls.foldl (DescribePrinter.printLine env) (dp, w) =
      ((ls.foldl (DescribePrinter.printLine env) (dp, [])).1,
        w ++ (ls.foldl (DescribePrinter.printLine env) (dp, [])).2) := by
  induction ls generalizing dp w with
  | nil => simp
  | cons x xs ih =>
    simp only [List.foldl_cons]
    rw [printLine_sink env dp w x, ih,
      ih (DescribePrinter.printLine env (dp, []) x).1
        (DescribePrinter.printLine env (dp, []) x).2]
    simp

/-- The result of `Print`: no buffer is left open, and the last call hands over the buffer
the loop left open. -/
theorem Print_eq {Color : Type} (env : Deps Color) (dp : DescribePrinter)
    (r : List (Line × Path)) :
    dp.Print env r =
      (⟨(r.foldl (DescribePrinter.printLine env) (dp, [])).1.DarkBackground, none⟩,
        (r.foldl (DescribePrinter.printLine env) (dp, [])).2 ++
          (r.foldl (DescribePrinter.printLine env) (dp, [])).1.pendingTable) := by
  unfold DescribePrinter.Print DescribePrinter.pendingTable
  generalize r.foldl (DescribePrinter.printLine env) (dp, []) = st
  obtain ⟨⟨dark, tb⟩, w⟩ := st
  cases tb <;> simp

/-- After a line that is not buffered, or at the start, no table buffer is open. -/
theorem foldl_printLine_closed {Color : Type} (env : Deps Color) (dp : DescribePrinter)
    (hdp : dp.tableBytes = none) (pre : List (Line × Path))
    (hpre : ∀ x, pre.getLast? = some x → isTableLine x.1 = false) :
    (pre.foldl (DescribePrinter.printLine env) (dp, [])).1 = dp := by
  rcases List.eq_nil_or_concat pre with rfl | ⟨init, x, rfl⟩
  · rfl
  · have hx : isTableLine x.1 = false := hpre x (by simp)
    rw [List.concat_eq_append, List.foldl_append, List.foldl_cons, List.foldl_nil,
      printLine_of_plain env _ x hx]
    have hd : ∀ (ls : List (Line × Path)) (st : DescribePrinter × List Out),
        (ls.foldl (DescribePrinter.printLine env) st).1.DarkBackground =
          st.1.DarkBackground := by
      intro ls
      induction ls with
      | nil => intro st; rfl
      | cons y ys ih => intro st; rw [List.foldl_cons, ih, printLine_dark]
    obtain ⟨dark, tb⟩ := dp
    simp only at hdp
    subst hdp
    simp [hd]

/-- A run of buffered lines extends the table buffer by its text and makes no call. -/
theorem foldl_printLine_run {Color : Type} (env : Deps Color) (run : List (Line × Path))
    (hall : ∀ x ∈ run, isTableLine x.1 = true) (x : Line × Path)
    (hx : isTableLine x.1 = true) (dp : DescribePrinter) (w : List Out) :
    (x :: run).foldl (DescribePrinter.printLine env) (dp, w) =
      (⟨dp.DarkBackground, some (dp.tableBytes.getD [] ++ linesText (x :: run))⟩, w) := by
  induction run generalizing x dp with
  | nil => simp [printLine_of_table env _ x hx, linesText]
  | cons y ys ih =>
    rw [List.foldl_cons, printLine_of_table env _ x hx,
      ih (fun z hz => hall z (List.mem_cons_of_mem _ hz)) y
        (hall y (List.mem_cons_self _ _))]
    simp [linesText]

theorem foldl_printLine_dark {Color : Type} (env : Deps Color) (ls : List (Line × Path))
    (st : DescribePrinter × List Out) :
    (ls.foldl (DescribePrinter.printLine env) st).1.DarkBackground =
      st.1.DarkBackground := by
  induction ls generalizing st with
  | nil => rfl
  | cons y ys ih => rw [List.foldl_cons, ih, printLine_dark]

/-- `Print` leaves no buffer open and does not change the background flag. -/
theorem Print_printer {Color : Type} (env : Deps Color) (dp : DescribePrinter)
    (r : List (Line × Path)) :
    (dp.Print env r).1 = ⟨dp.DarkBackground, none⟩ := by
  rw [Print_eq, foldl_printLine_dark]

/-! ### Printing with colours disabled -/

theorem CutSuffix_found (s suffix k : Text) (h : CutSuffix s suffix = (k, true)) :
    s = k ++ suffix := by
  unfold CutSuffix at h
  split at h
  · rename_i hs
    simp only [Prod.mk.injEq, and_true] at h
    subst h
    simp only [HasSuffix, Bool.and_eq_true, decide_eq_true_eq, beq_iff_eq] at hs
    conv_lhs => rw [← List.take_append_drop (s.length - suffix.length) s]
    rw [hs.2]
  · simp at h

/-- With `Apply` the identity, what the separator loop writes is the text itself. -/
theorem colorFprintSeps_plain {Color : Type} (env : Deps Color)
    (hApply : ∀ s c, env.Apply s c = s) (tablePrint : Text → Text) (dp : DescribePrinter)
    (path : Path) (val : Text) (seps : List Text) :
    ((dp.colorFprintSeps env path val seps).2 = true →
      sinkBytes tablePrint (dp.colorFprintSeps env path val seps).1 = val) ∧
    ((dp.colorFprintSeps env path val seps).2 = false →
      (dp.colorFprintSeps env path val seps).1 = []) := by
  induction seps with
  | nil => simp [DescribePrinter.colorFprintSeps]
  | cons sep seps ih =>
    rcases hc : Cut val sep with ⟨k, v, found⟩
    cases found with
    | true =>
      have hv := Cut_found val sep k v hc
      simp only [DescribePrinter.colorFprintSeps, hc, hApply, sinkBytes_write]
      simp [hv]
    | false =>
      simp only [DescribePrinter.colorFprintSeps, hc]
      exact ih

theorem colorFprintLabelOrAnnotation_plain {Color : Type} (env : Deps Color)
    (hApply : ∀ s c, env.Apply s c = s) (tablePrint : Text → Text) (dp : DescribePrinter)
    (path : Path) (val : Text) :
    ((dp.colorFprintLabelOrAnnotation env path val).2 = true →
      sinkBytes tablePrint (dp.colorFprintLabelOrAnnotation env path val).1 = val) ∧
    ((dp.colorFprintLabelOrAnnotation env path val).2 = false →
      (dp.colorFprintLabelOrAnnotation env path val).1 = []) := by
  unfold DescribePrinter.colorFprintLabelOrAnnotation
  split
  · exact colorFprintSeps_plain env hApply tablePrint dp path val _
  · simp

/-- With `Apply` the identity, the key block writes the key. -/
theorem printKey_plain {Color : Type} (env : Deps Color)
    (hApply : ∀ s c, env.Apply s c = s) (tablePrint : Text → Text) (dp : DescribePrinter)
    (line : Line) (path : Path) :
    sinkBytes tablePrint (dp.printKey env line path) = line.Key := by
  unfold DescribePrinter.printKey
  split
  · rcases hc : CutSuffix line.Key ":".toList with ⟨k, found⟩
    cases found with
    | true =>
      have hk := CutSuffix_found _ _ _ hc
      simp only [hc, hApply, sinkBytes_write]
      exact hk.symm
    | false =>
      simp only [hc]
      have h := colorFprintLabelOrAnnotation_plain env hApply tablePrint dp path line.Key
      rcases hr : dp.colorFprintLabelOrAnnotation env path line.Key with ⟨w, ok⟩
      rw [hr] at h
      cases ok with
      | true => exact h.1 rfl
      | false =>
        have hw : w = [] := h.2 rfl
        simp only [hw, hApply, List.nil_append, sinkBytes_write]
  · rename_i hlen
    have : line.Key = [] := by
      cases hk : line.Key with
      | nil => rfl
      | cons c s => simp [hk] at hlen
    simp [this, sinkBytes_nil]

/-- With `Apply` the identity, the value block writes the value. -/
theorem printValue_plain {Color : Type} (env : Deps Color)
    (hApply : ∀ s c, env.Apply s c = s) (tablePrint : Text → Text) (dp : DescribePrinter)
    (line : Line) (path : Path) :
    sinkBytes tablePrint (dp.printValue env line path) = line.Value := by
  unfold DescribePrinter.printValue
  split
  · simp only
    have h := colorFprintLabelOrAnnotation_plain env hApply tablePrint dp path line.Value
    rcases hr : dp.colorFprintLabelOrAnnotation env path line.Value with ⟨w, ok⟩
    rw [hr] at h
    cases ok with
    | true => exact h.1 rfl
    | false =>
      have hw : w = [] := h.2 rfl
      simp [hw, hApply, sinkBytes_write]
  · rename_i hlen
    have : line.Value = [] := by
      cases hk : line.Value with
      | nil => rfl
      | cons c s => simp [hk] at hlen
    simp [this, sinkBytes_nil]

/-- With colours disabled and a table printer that copies its buffer, the bytes written
so far together with the buffered bytes are the text of the lines read so far. -/
theorem foldl_printLine_plain {Color : Type} (env : Deps Color)
    (hApply : ∀ s c, env.Apply s c = s) (tablePrint : Text → Text)
    (hTable : ∀ b, tablePrint b = b) (ls : List (Line × Path))
    (st : DescribePrinter × List Out) :
    sinkBytes tablePrint (ls.foldl (DescribePrinter.printLine env) st).2 ++
        (ls.foldl (DescribePrinter.printLine env) st).1.tableBytes.getD [] =
      sinkBytes tablePrint st.2 ++ st.1.tableBytes.getD [] ++ linesText ls := by
  induction ls generalizing st with
  | nil => simp [linesText]
  | cons x xs ih =>
    rw [List.foldl_cons, ih]
    have hl : linesText (x :: xs) = x.1.String ++ ['\n'] ++ linesText xs := by
      simp [linesText]
    rw [hl]
    cases hx : isTableLine x.1 with
    | true =>
      rw [printLine_of_table env st x hx]
      simp [List.append_assoc]
    | false =>
      rw [printLine_of_plain env st x hx]
      have hp : sinkBytes tablePrint st.1.pendingTable = st.1.tableBytes.getD [] := by
        unfold DescribePrinter.pendingTable
        cases st.1.tableBytes with
        | none => rfl
        | some b => simp [sinkBytes_table, hTable]
      simp only [sinkBytes_append, sinkBytes_write, hp, printKey_plain env hApply,
        printValue_plain env hApply, Option.getD_none, List.append_nil, Line.String,
        List.append_assoc]

/-- With colours disabled and a table printer that copies its buffer, `Print` writes the
text of the lines it read, each followed by a newline. -/
theorem Print_plain_bytes {Color : Type} (env : Deps Color)
    (hApply : ∀ s c, env.Apply s c = s) (tablePrint : Text → Text)
    (hTable : ∀ b, tablePrint b = b) (dp : DescribePrinter) (hdp : dp.tableBytes = none)
    (ls : List (Line × Path)) :
    sinkBytes tablePrint (dp.Print env ls).2 = linesText ls := by
  have h := foldl_printLine_plain env hApply tablePrint hTable ls (dp, [])
  rw [Print_eq, sinkBytes_append]
  have hp : ∀ d : DescribePrinter,
      sinkBytes tablePrint d.pendingTable = d.tableBytes.getD [] := by
    intro d
    unfold DescribePrinter.pendingTable
    cases d.tableBytes with
    | none => rfl
    | some b => simp [sinkBytes_table, hTable]
  rw [hp, h]
  simp [hdp, sinkBytes_nil]

/-! ### Trimming -/

theorem TrimSpace_eq (s : Text) :
    TrimSpace s = (s.dropWhile isSpace).rdropWhile isSpace := rfl

/-- Trimming a trimmed text changes nothing. -/
theorem TrimSpace_idem (s : Text) : TrimSpace (TrimSpace s) = TrimSpace s := by
  have hlead : (TrimSpace s).dropWhile isSpace = TrimSpace s := by
    rw [TrimSpace_eq]
    obtain ⟨w, hw⟩ := List.rdropWhile_prefix isSpace (l := s.dropWhile isSpace)
    cases ht : (s.dropWhile isSpace).rdropWhile isSpace with
    | nil => rfl
    | cons a t =>
      rw [ht] at hw
      have hne : s.dropWhile isSpace ≠ [] := by rw [← hw]; simp
      have hhead := List.head_dropWhile_not isSpace s hne
      have ha : (s.dropWhile isSpace).head hne = a := by
        simp only [← hw, List.cons_append, List.head_cons]
      rw [ha] at hhead
      simp [List.dropWhile_cons, hhead]
  rw [TrimSpace_eq (TrimSpace s), hlead, TrimSpace_eq, List.rdropWhile_idempotent]

/-! ### Key and value blocks -/

/-- The key block on a key that ends with a colon. -/
theorem printKey_of_colon {Color : Type} (env : Deps Color) (dp : DescribePrinter)
    (line : Line) (path : Path) (k : Text) (hk : line.Key = k ++ ":".toList) :
    dp.printKey env line path =
      [.write (env.Apply k (env.getColorByKeyIndent line.KeyIndent basicIndentWidth
        dp.DarkBackground) ++ ":".toList)] := by
  have hlen : 0 < (k ++ ":".toList).length := by simp
  simp only [DescribePrinter.printKey, hk, gt_iff_lt, hlen, if_true, CutSuffix_append]

/-- The value block on an empty value. -/
theorem printValue_of_empty {Color : Type} (env : Deps Color) (dp : DescribePrinter)
    (line : Line) (path : Path) (hv : line.Value = []) :
    dp.printValue env line path = [] := by
  simp [DescribePrinter.printValue, hv]

/-- The value block on a value in which neither separator occurs, or off the status
paths: the whole value in its colour. -/
theorem printValue_of_whole {Color : Type} (env : Deps Color) (dp : DescribePrinter)
    (line : Line) (path : Path) (hv : line.Value ≠ [])
    (h : describeUseStatusColoring path = false ∨
      (Cut line.Value ": ".toList).2.2 = false ∧ (Cut line.Value "=".toList).2.2 = false) :
    dp.printValue env line path =
      [.write (env.Apply line.Value (dp.valueColor env path line.Value))] := by
  have hlen : line.Value.length > 0 := by
    cases hl : line.Value with
    | nil => exact absurd hl hv
    | cons c s => simp
  have hno : dp.colorFprintLabelOrAnnotation env path line.Value = ([], false) := by
    rcases h with h | ⟨h1, h2⟩
    · simp [DescribePrinter.colorFprintLabelOrAnnotation, h]
    · unfold DescribePrinter.colorFprintLabelOrAnnotation
      split
      · rcases hc1 : Cut line.Value ": ".toList with ⟨k1, v1, f1⟩
        rcases hc2 : Cut line.Value "=".toList with ⟨k2, v2, f2⟩
        rw [hc1] at h1
        rw [hc2] at h2
        simp only at h1 h2
        subst h1
        subst h2
        simp only [labelOrAnnotationSeps, DescribePrinter.colorFprintSeps, hc1, hc2]
      · rfl
  simp only [DescribePrinter.printValue, hlen, if_true, hno, List.nil_append]

/-- On a status path a recognised status gets the colour of the vocabulary. -/
theorem valueColor_of_status {Color : Type} (env : Deps Color) (dp : DescribePrinter)
    (path : Path) (value : Text) (col : Color) (hp : describeUseStatusColoring path = true)
    (hc : env.ColorStatus (TrimSpace value) = some col) :
    dp.valueColor env path value = col := by
  simp [DescribePrinter.valueColor, hp, hc]

/-- Off the status paths a value gets its type colour. -/
theorem valueColor_of_plain {Color : Type} (env : Deps Color) (dp : DescribePrinter)
    (path : Path) (value : Text) (hp : describeUseStatusColoring path = false) :
    dp.valueColor env path value =
      env.getColorByValueType (TrimSpace value) dp.DarkBackground := by
  simp [DescribePrinter.valueColor, hp]

/-- The calls `Print` makes on input without table lines: the loop body's calls for each
line in turn, and no call of the table printer. -/
theorem Print_of_plain_lines {Color : Type} (env : Deps Color) (dp : DescribePrinter)
    (hdp : dp.tableBytes = none) (ls : List (Line × Path))
    (hls : ∀ x ∈ ls, isTableLine x.1 = false) :
    dp.Print env ls =
      (dp, ls.flatMap (fun x =>
        [.write x.1.Indent] ++ dp.printKey env x.1 x.2 ++ [.write x.1.Spacing] ++
          dp.printValue env x.1 x.2 ++ [.write (x.1.Trailing ++ ['\n'])])) := by
  obtain ⟨dark, tb⟩ := dp
  simp only at hdp
  subst hdp
  have hfold : ∀ (l : List (Line × Path)), (∀ x ∈ l, isTableLine x.1 = false) →
      l.foldl (DescribePrinter.printLine env) (⟨dark, none⟩, []) =
        (⟨dark, none⟩, l.flatMap (fun x =>
          [.write x.1.Indent] ++ DescribePrinter.printKey env ⟨dark, none⟩ x.1 x.2 ++
            [.write x.1.Spacing] ++ DescribePrinter.printValue env ⟨dark, none⟩ x.1 x.2 ++
            [.write (x.1.Trailing ++ ['\n'])])) := by
    intro l
    induction l with
    | nil => intro _; rfl
    | cons y ys ih =>
      intro hl
      have hy : isTableLine y.1 = false := hl y (List.mem_cons_self _ _)
      rw [List.foldl_cons, printLine_of_plain env _ y hy, foldl_printLine_sink,
        ih (fun z hz => hl z (List.mem_cons_of_mem _ hz))]
      simp [DescribePrinter.pendingTable]
  rw [Print_eq, hfold ls hls]
  simp [DescribePrinter.pendingTable]

/-! ## Value colour and status paths -/

/-- C5: `valueColor` returns the status vocabulary's colour for the trimmed value when
the path uses status colouring and the vocabulary recognises the trimmed value; in every
other case it returns the type colour of the trimmed value for the printer's background;
in particular, off the status paths the result is always the type colour. -/
theorem valueColor_resolution {Color : Type} (env : Deps Color) (dp : DescribePrinter)
    (path : Path) (value : Text) :
    (∀ col, describeUseStatusColoring path = true →
        env.ColorStatus (TrimSpace value) = some col →
        dp.valueColor env path value = col) ∧
    (¬ (describeUseStatusColoring path = true ∧
          (env.ColorStatus (TrimSpace value)).isSome = true) →
        dp.valueColor env path value =
          env.getColorByValueType (TrimSpace value) dp.DarkBackground) ∧
    (describeUseStatusColoring path = false →
        dp.valueColor env path value =
          env.getColorByValueType (TrimSpace value) dp.DarkBackground) := by
  refine ⟨?_, ?_, ?_⟩
  · intro col hp hc
    simp [DescribePrinter.valueColor, hp, hc]
  · intro h
    by_cases hp : describeUseStatusColoring path = true
    · cases hc : env.ColorStatus (TrimSpace value) with
      | none => simp [DescribePrinter.valueColor, hp, hc]
      | some col => exact absurd ⟨hp, by simp [hc]⟩ h
    · simp [DescribePrinter.valueColor, hp]
  · intro hp
    simp [DescribePrinter.valueColor, hp]

/-- C5, run on examples: ` Running ` under `Status` gets the status colour 1, `12` under
`Status` and `Running` under `Spec` get the type colour 0. -/
theorem valueColor_resolution_witness :
    freshPrinter.valueColor demoDeps ["Status".toList] " Running ".toList = 1 ∧
    freshPrinter.valueColor demoDeps ["Status".toList] "12".toList = 0 ∧
    freshPrinter.valueColor demoDeps ["Spec".toList] "Running".toList = 0 :=
  ⟨(valueColor_resolution demoDeps freshPrinter ["Status".toList] " Running ".toList).1 1
      (by decide) (by decide),
   (valueColor_resolution demoDeps freshPrinter ["Status".toList] "12".toList).2.1
      (by decide),
   (valueColor_resolution demoDeps freshPrinter ["Spec".toList] "Running".toList).2.2
      (by decide)⟩

/-- C6, as stated, fails for a segment that contains a slash: the path
`[Containers, a/b, State]` does not use status colouring. -/
theorem containerState_slash_segment :
    describeUseStatusColoring ["Containers".toList, "a/b".toList, "State".toList] = false := by
  decide

/-- C6, amended: for every segment `c` without a slash, the paths `[Containers, c, State]`
and `[Init Containers, c, State]`, and each of them extended by `Reason`, use status
colouring. -/
theorem containerState_uses_status (c : Text) (hc : '/' ∉ c) :
    describeUseStatusColoring ["Containers".toList, c, "State".toList] = true ∧
    describeUseStatusColoring ["Init Containers".toList, c, "State".toList] = true ∧
    describeUseStatusColoring ["Containers".toList, c, "State".toList, "Reason".toList] = true ∧
    describeUseStatusColoring
      ["Init Containers".toList, c, "State".toList, "Reason".toList] = true := by
  refine ⟨?_, ?_, ?_, ?_⟩
  · rw [describeUseStatusColoring_iff]
    exact ⟨by simp, Or.inr (Or.inl ⟨[], c, [], by simp [Path.String], Or.inr rfl, hc,
      Or.inr rfl⟩)⟩
  · rw [describeUseStatusColoring_iff]
    exact ⟨by simp, Or.inr (Or.inl ⟨"Init ".toList, c, [], by simp [Path.String],
      Or.inl rfl, hc, Or.inr rfl⟩)⟩
  · rw [describeUseStatusColoring_iff]
    exact ⟨by simp, Or.inr (Or.inl ⟨[], c, "/Reason".toList, by simp [Path.String],
      Or.inr rfl, hc, Or.inl rfl⟩)⟩
  · rw [describeUseStatusColoring_iff]
    exact ⟨by simp, Or.inr (Or.inl ⟨"Init ".toList, c, "/Reason".toList,
      by simp [Path.String], Or.inl rfl, hc, Or.inl rfl⟩)⟩

/-- C6, run on the segment `c1`. -/
theorem containerState_uses_status_witness :
    '/' ∉ "c1".toList ∧
    describeUseStatusColoring ["Containers".toList, "c1".toList, "State".toList] = true :=
  ⟨by decide, (containerState_uses_status "c1".toList (by decide)).1⟩

/-- C7: the status patterns are anchored at the start of the path:
`describeUseStatusColoring` is false for the empty path and for every path whose first
segment does not begin with `Status`, `Containers`, `Init Containers`, `Labels` or
`Annotations`. -/
theorem status_patterns_anchored (path : Path)
    (h : ∀ seg, path.head? = some seg →
      ¬ "Status".toList <+: seg ∧ ¬ "Containers".toList <+: seg ∧
      ¬ "Init Containers".toList <+: seg ∧ ¬ "Labels".toList <+: seg ∧
      ¬ "Annotations".toList <+: seg) :
    describeUseStatusColoring path = false := by
  cases path with
  | nil => rfl
  | cons seg rest =>
    obtain ⟨h1, h2, h3, h4, h5⟩ := h seg rfl
    cases hd : describeUseStatusColoring (seg :: rest) with
    | false => rfl
    | true =>
      exfalso
      rcases status_path_head _ hd with p | p | p | p | p
      · exact h1 (prefix_first_segment _ seg rest (by decide) p)
      · exact h2 (prefix_first_segment _ seg rest (by decide) p)
      · exact h3 (prefix_first_segment _ seg rest (by decide) p)
      · exact h4 (prefix_first_segment _ seg rest (by decide) p)
      · exact h5 (prefix_first_segment _ seg rest (by decide) p)

/-- C7, run on `[Spec, Containers, c1, Image]`, `[Spec, Containers, c1, State]` and the
empty path. -/
theorem status_patterns_anchored_witness :
    describeUseStatusColoring
      ["Spec".toList, "Containers".toList, "c1".toList, "Image".toList] = false ∧
    describeUseStatusColoring
      ["Spec".toList, "Containers".toList, "c1".toList, "State".toList] = false ∧
    describeUseStatusColoring [] = false :=
  ⟨status_patterns_anchored _ (by
      intro seg hseg
      simp only [List.head?_cons, Option.some.injEq] at hseg
      subst hseg
      decide),
   status_patterns_anchored _ (by
      intro seg hseg
      simp only [List.head?_cons, Option.some.injEq] at hseg
      subst hseg
      decide),
   status_patterns_anchored [] (by intro seg hseg; simp at hseg)⟩

/-- C11: the `Status` pattern is exact: a path whose first segment is `Status` uses status
colouring if and only if it has no further segment. -/
theorem status_pattern_exact (rest : Path) :
    describeUseStatusColoring ("Status".toList :: rest) = true ↔ rest = [] := by
  constructor
  · intro h
    cases rest with
    | nil => rfl
    | cons r rs =>
      exfalso
      rw [describeUseStatusColoring_shape, pathString_cons_cons] at h
      obtain ⟨_, h⟩ := h
      generalize Path.String (r :: rs) = tl at h
      rcases h with h | ⟨pre, c, suf, hs, hpre, _, _⟩ | ⟨c, suf, hs, _, _⟩ | h |
        ⟨pre, c, d, u, hs, hpre, _⟩
      · simp at h
      · rcases hpre with rfl | rfl <;> simp at hs
      · simp at hs
      · rcases h with ⟨u, hu⟩ | ⟨u, hu⟩ <;> simp at hu
      · rcases hpre with rfl | rfl <;> simp at hs
  · rintro rfl
    decide

/-- C12: every non-empty path whose joined rendering begins with `Labels` or with
`Annotations` uses status colouring, whatever follows. -/
theorem labels_prefix_uses_status (path : Path) (hne : path ≠ [])
    (h : "Labels".toList <+: Path.String path ∨ "Annotations".toList <+: Path.String path) :
    describeUseStatusColoring path = true := by
  rw [describeUseStatusColoring_shape]
  exact ⟨hne, Or.inr (Or.inr (Or.inr (Or.inl h)))⟩

/-- C12, run on `[Labels]`, `[Annotations, x, y]` and `[LabelsFoo]`. -/
theorem labels_prefix_uses_status_witness :
    describeUseStatusColoring ["Labels".toList] = true ∧
    describeUseStatusColoring ["Annotations".toList, "x".toList, "y".toList] = true ∧
    describeUseStatusColoring ["LabelsFoo".toList] = true :=
  ⟨labels_prefix_uses_status ["Labels".toList] (by simp) (Or.inl (by decide)),
   labels_prefix_uses_status ["Annotations".toList, "x".toList, "y".toList] (by simp)
     (Or.inr (by decide)),
   labels_prefix_uses_status ["LabelsFoo".toList] (by simp) (Or.inl (by decide))⟩

/-- C13, as stated, fails when nothing follows `Environment Variables from`: the path
`[Containers, c1, Environment Variables from]` does not use status colouring; nor do the
paths with an empty segment or a segment with a slash in the place of `c1`, or with a
further part that is empty or begins with a newline. -/
theorem envFrom_needs_child :
    describeUseStatusColoring
      ["Containers".toList, "c1".toList, "Environment Variables from".toList] = false ∧
    describeUseStatusColoring
      ["Containers".toList, [], "Environment Variables from".toList, "x".toList] = false ∧
    describeUseStatusColoring
      ["Containers".toList, "a/b".toList, "Environment Variables from".toList,
        "x".toList] = false ∧
    describeUseStatusColoring
      ["Containers".toList, "c1".toList, "Environment Variables from".toList, []] = false ∧
    describeUseStatusColoring
      ["Containers".toList, "c1".toList, "Environment Variables from".toList,
        "\nx".toList] = false := by
  decide

/-- C13, amended: for every non-empty segment `c` without a slash and every further path
whose joined rendering is not empty and does not begin with a newline, the paths
`[Containers, c, Environment Variables from]` and
`[Init Containers, c, Environment Variables from]` followed by that further path use
status colouring. -/
theorem envFrom_uses_status (c : Text) (rest : Path) (d : Char) (u : Text)
    (hc : c ≠ []) (hslash : '/' ∉ c) (hrest : Path.String rest = d :: u) (hd : d ≠ '\n') :
    describeUseStatusColoring
      (["Containers".toList, c, "Environment Variables from".toList] ++ rest) = true ∧
    describeUseStatusColoring
      (["Init Containers".toList, c, "Environment Variables from".toList] ++ rest) = true := by
  have hne : rest ≠ [] := by
    rintro rfl
    simp [Path.String] at hrest
  have hs : ∀ head : Text,
      Path.String ([head, c, "Environment Variables from".toList] ++ rest) =
        head ++ '/' :: (c ++ '/' :: ("Environment Variables from".toList ++ '/' :: d :: u)) := by
    intro head
    rw [List.cons_append, List.cons_append, List.cons_append, List.nil_append,
      pathString_cons_cons, pathString_cons_cons, pathString_cons_of_ne _ rest hne, hrest]
  refine ⟨?_, ?_⟩
  · rw [describeUseStatusColoring_shape]
    refine ⟨by simp, Or.inr (Or.inr (Or.inr (Or.inr ⟨[], c, d, u, ?_, Or.inr rfl, hc, hslash,
      hd⟩)))⟩
    rw [hs]
    simp
  · rw [describeUseStatusColoring_shape]
    refine ⟨by simp, Or.inr (Or.inr (Or.inr (Or.inr ⟨"Init ".toList, c, d, u, ?_, Or.inl rfl,
      hc, hslash, hd⟩)))⟩
    rw [hs]
    simp

/-- C13, run on `[Containers, c1, Environment Variables from, my-config]` and on the same
path under `Init Containers` with two further segments. -/
theorem envFrom_uses_status_witness :
    describeUseStatusColoring
      (["Containers".toList, "c1".toList, "Environment Variables from".toList] ++
        ["my-config".toList]) = true ∧
    describeUseStatusColoring
      (["Init Containers".toList, "c1".toList, "Environment Variables from".toList] ++
        ["my-config".toList, "Optional".toList]) = true :=
  ⟨(envFrom_uses_status "c1".toList ["my-config".toList] 'm' "y-config".toList (by simp)
      (by decide) rfl (by decide)).1,
   (envFrom_uses_status "c1".toList ["my-config".toList, "Optional".toList] 'm'
      "y-config/Optional".toList (by simp) (by decide) rfl (by decide)).2⟩

/-- C16: below `State` and `Last State` only the child `Reason` is status-coloured, and
`Last State` counts under `Containers` only: for every segment `c` without a slash and
every segment `x`, the paths `[Containers, c, State, x]` and `[Containers, c, Last State, x]`
use status colouring if and only if `x` is `Reason`; `[Containers, c, Last State]` uses
status colouring and `[Init Containers, c, Last State]` does not. -/
theorem state_children (c x : Text) (hc : '/' ∉ c) :
    (describeUseStatusColoring ["Containers".toList, c, "State".toList, x] = true ↔
      x = "Reason".toList) ∧
    (describeUseStatusColoring ["Containers".toList, c, "Last State".toList, x] = true ↔
      x = "Reason".toList) ∧
    describeUseStatusColoring ["Containers".toList, c, "Last State".toList] = true ∧
    describeUseStatusColoring ["Init Containers".toList, c, "Last State".toList] = false := by
  refine ⟨⟨?_, ?_⟩, ⟨?_, ?_⟩, ?_, ?_⟩
  · intro h
    rw [describeUseStatusColoring_shape] at h
    obtain ⟨_, h⟩ := h
    simp only [Path.String] at h
    rcases h with h | ⟨pre, c2, suf, hs, hpre, hc2, hsuf⟩ | ⟨c2, suf, hs, hc2, _⟩ | h |
      ⟨pre, c2, d, u, hs, hpre, _, hc2, _⟩
    · simp at h
    · rcases hpre with rfl | rfl
      · simp at hs
      · simp only [String.toList, List.cons_append, List.nil_append, List.cons.injEq,
          true_and] at hs
        obtain ⟨rfl, h2⟩ := first_slash_unique _ _ _ _ hc hc2 hs
        rcases hsuf with rfl | rfl
        · simpa using h2
        · simp at h2
    · simp only [String.toList, List.cons_append, List.nil_append, List.cons.injEq,
        true_and] at hs
      obtain ⟨rfl, h2⟩ := first_slash_unique _ _ _ _ hc hc2 hs
      simp at h2
    · rcases h with ⟨u, hu⟩ | ⟨u, hu⟩ <;> simp at hu
    · rcases hpre with rfl | rfl
      · simp at hs
      · simp only [String.toList, List.cons_append, List.nil_append, List.cons.injEq,
          true_and] at hs
        obtain ⟨rfl, h2⟩ := first_slash_unique _ _ _ _ hc hc2 hs
        simp at h2
  · rintro rfl
    rw [describeUseStatusColoring_shape]
    exact ⟨by simp, Or.inr (Or.inl ⟨[], c, "/Reason".toList, by simp [Path.String],
      Or.inr rfl, hc, Or.inl rfl⟩)⟩
  · intro h
    rw [describeUseStatusColoring_shape] at h
    obtain ⟨_, h⟩ := h
    simp only [Path.String] at h
    rcases h with h | ⟨pre, c2, suf, hs, hpre, hc2, _⟩ | ⟨c2, suf, hs, hc2, hsuf⟩ | h |
      ⟨pre, c2, d, u, hs, hpre, _, hc2, _⟩
    · simp at h
    · rcases hpre with rfl | rfl
      · simp at hs
      · simp only [String.toList, List.cons_append, List.nil_append, List.cons.injEq,
          true_and] at hs
        obtain ⟨rfl, h2⟩ := first_slash_unique _ _ _ _ hc hc2 hs
        simp at h2
    · simp only [String.toList, List.cons_append, List.nil_append, List.cons.injEq,
        true_and] at hs
      obtain ⟨rfl, h2⟩ := first_slash_unique _ _ _ _ hc hc2 hs
      rcases hsuf with rfl | rfl
      · simpa using h2
      · simp at h2
    · rcases h with ⟨u, hu⟩ | ⟨u, hu⟩ <;> simp at hu
    · rcases hpre with rfl | rfl
      · simp at hs
      · simp only [String.toList, List.cons_append, List.nil_append, List.cons.injEq,
          true_and] at hs
        obtain ⟨rfl, h2⟩ := first_slash_unique _ _ _ _ hc hc2 hs
        simp at h2
  · rintro rfl
    rw [describeUseStatusColoring_shape]
    exact ⟨by simp, Or.inr (Or.inr (Or.inl ⟨c, "/Reason".toList, by simp [Path.String], hc,
      Or.inl rfl⟩))⟩
  · rw [describeUseStatusColoring_shape]
    exact ⟨by simp, Or.inr (Or.inr (Or.inl ⟨c, [], by simp [Path.String], hc, Or.inr rfl⟩))⟩
  · cases hd : describeUseStatusColoring ["Init Containers".toList, c, "Last State".toList] with
    | false => rfl
    | true =>
      exfalso
      rw [describeUseStatusColoring_shape] at hd
      obtain ⟨_, h⟩ := hd
      simp only [Path.String] at h
      rcases h with h | ⟨pre, c2, suf, hs, hpre, hc2, _⟩ | ⟨c2, suf, hs, hc2, _⟩ | h |
        ⟨pre, c2, d, u, hs, hpre, _, hc2, _⟩
      · simp at h
      · rcases hpre with rfl | rfl
        · simp only [String.toList, List.cons_append, List.nil_append, List.cons.injEq,
            true_and] at hs
          obtain ⟨rfl, h2⟩ := first_slash_unique _ _ _ _ hc hc2 hs
          simp at h2
        · simp at hs
      · simp at hs
      · rcases h with ⟨u, hu⟩ | ⟨u, hu⟩ <;> simp at hu
      · rcases hpre with rfl | rfl
        · simp only [String.toList, List.cons_append, List.nil_append, List.cons.injEq,
            true_and] at hs
          obtain ⟨rfl, h2⟩ := first_slash_unique _ _ _ _ hc hc2 hs
          simp at h2
        · simp at hs

/-- C16, run on the segment `c1` with the children `Reason` and `Message`. -/
theorem state_children_witness :
    '/' ∉ "c1".toList ∧
    describeUseStatusColoring
      ["Containers".toList, "c1".toList, "State".toList, "Reason".toList] = true ∧
    ¬ describeUseStatusColoring
      ["Containers".toList, "c1".toList, "Last State".toList, "Message".toList] = true ∧
    describeUseStatusColoring
      ["Init Containers".toList, "c1".toList, "Last State".toList] = false :=
  ⟨by decide,
   (state_children "c1".toList "Reason".toList (by decide)).1.mpr rfl,
   fun h => absurd ((state_children "c1".toList "Message".toList (by decide)).2.1.mp h)
     (by decide),
   (state_children "c1".toList "Reason".toList (by decide)).2.2.2⟩

/-- C18: the value colour ignores surrounding white space: the colour of a value is the
colour of the trimmed value; so the halves `app ` and ` myapp` of `app = myapp` are
coloured as `app` and `myapp` are. -/
theorem valueColor_trim {Color : Type} (env : Deps Color) (dp : DescribePrinter)
    (path : Path) (value : Text) :
    dp.valueColor env path value = dp.valueColor env path (TrimSpace value) ∧
    Cut "app = myapp".toList "=".toList = ("app ".toList, " myapp".toList, true) ∧
    dp.valueColor env path "app ".toList = dp.valueColor env path "app".toList ∧
    dp.valueColor env path " myapp".toList = dp.valueColor env path "myapp".toList := by
  have h : ∀ v, dp.valueColor env path v = dp.valueColor env path (TrimSpace v) := by
    intro v
    simp only [DescribePrinter.valueColor, TrimSpace_idem]
  refine ⟨h value, by decide, ?_, ?_⟩
  · rw [h "app ".toList, h "app".toList]
    have e : TrimSpace "app ".toList = TrimSpace "app".toList := by decide
    rw [e]
  · rw [h " myapp".toList, h "myapp".toList]
    have e : TrimSpace " myapp".toList = TrimSpace "myapp".toList := by decide
    rw [e]

/-! ## Label and annotation splitting -/

/-- C8, as stated, fails: splitting is not confined to `Labels` and `Annotations`; under
the path `[Status]` the text `app=myapp` is split as well. -/
theorem split_applies_under_status :
    freshPrinter.colorFprintLabelOrAnnotation demoDeps ["Status".toList] "app=myapp".toList =
      ([.write "0[app]=0[myapp]".toList], true) := by
  decide

/-- C8, amended: under the path `[Labels]` the text `app=myapp` is written as the coloured
`app`, an uncoloured `=` and the coloured `myapp`, and the result is true; for every path
that does not use status colouring the function writes nothing and returns false, and
the value block of `Print` colours `app=myapp` as one whole value. -/
theorem label_split_confined {Color : Type} (env : Deps Color) (dp : DescribePrinter) :
    dp.colorFprintLabelOrAnnotation env ["Labels".toList] "app=myapp".toList =
      ([.write (env.Apply "app".toList (dp.valueColor env ["Labels".toList] "app".toList) ++
          "=".toList ++
          env.Apply "myapp".toList (dp.valueColor env ["Labels".toList] "myapp".toList))],
        true) ∧
    ∀ path, describeUseStatusColoring path = false →
      dp.colorFprintLabelOrAnnotation env path "app=myapp".toList = ([], false) ∧
      ∀ line : Line, line.Value = "app=myapp".toList →
        dp.printValue env line path =
          [.write (env.Apply "app=myapp".toList
            (dp.valueColor env path "app=myapp".toList))] := by
  have h1 : Cut "app=myapp".toList ": ".toList = ("app=myapp".toList, [], false) := by decide
  have h2 : Cut "app=myapp".toList "=".toList = ("app".toList, "myapp".toList, true) := by
    decide
  have h3 : describeUseStatusColoring ["Labels".toList] = true := by decide
  refine ⟨?_, ?_⟩
  · simp only [DescribePrinter.colorFprintLabelOrAnnotation, h3, if_true,
      labelOrAnnotationSeps, DescribePrinter.colorFprintSeps, h1, h2]
  · intro path hpath
    have hno : dp.colorFprintLabelOrAnnotation env path "app=myapp".toList = ([], false) := by
      simp [DescribePrinter.colorFprintLabelOrAnnotation, hpath]
    refine ⟨hno, ?_⟩
    intro line hv
    have hlen : line.Value.length > 0 := by rw [hv]; decide
    simp only [DescribePrinter.printValue, hlen, if_true]
    rw [hv, hno]
    rfl

/-- C8, run with numbered colours: split under `[Labels]`, whole under `[Name]`. -/
theorem label_split_confined_witness :
    freshPrinter.colorFprintLabelOrAnnotation demoDeps ["Labels".toList] "app=myapp".toList =
      ([.write "0[app]=0[myapp]".toList], true) ∧
    freshPrinter.colorFprintLabelOrAnnotation demoDeps ["Name".toList] "app=myapp".toList =
      ([], false) ∧
    freshPrinter.printValue demoDeps
        { Indent := [], Key := "Name:".toList, Spacing := " ".toList,
          Value := "app=myapp".toList, Trailing := [], keyIndent := 0 } ["Name".toList] =
      [.write "0[app=myapp]".toList] :=
  ⟨(label_split_confined demoDeps freshPrinter).1,
   ((label_split_confined demoDeps freshPrinter).2 ["Name".toList] (by decide)).1,
   ((label_split_confined demoDeps freshPrinter).2 ["Name".toList] (by decide)).2 _ rfl⟩

/-- C9: when splitting applies (the path uses status colouring), a text that contains
`: ` is split at the first `: `, also when an `=` comes earlier, and a text without `: `
is split at the first `=`; what is written is the coloured left part, the separator as it
is, and the coloured right part, each part with its own value colour, the three together
spelling the text; the value block of `Print` writes just that, not the whole value in
its colour. -/
theorem label_split_position {Color : Type} (env : Deps Color) (dp : DescribePrinter)
    (path : Path) (hpath : describeUseStatusColoring path = true) (left right sep : Text)
    (hsep : sep = ": ".toList ∨
      (sep = "=".toList ∧ ¬ ": ".toList <:+: left ++ sep ++ right))
    (hfirst : ∀ l2 r2, left ++ sep ++ right = l2 ++ sep ++ r2 → left.length ≤ l2.length) :
    dp.colorFprintLabelOrAnnotation env path (left ++ sep ++ right) =
      ([.write (env.Apply left (dp.valueColor env path left) ++ sep ++
          env.Apply right (dp.valueColor env path right))], true) ∧
    ∀ line : Line, line.Value = left ++ sep ++ right →
      dp.printValue env line path =
        [.write (env.Apply left (dp.valueColor env path left) ++ sep ++
          env.Apply right (dp.valueColor env path right))] := by
  have hcut := Cut_first sep left right hfirst
  have hsplit : dp.colorFprintLabelOrAnnotation env path (left ++ sep ++ right) =
      ([.write (env.Apply left (dp.valueColor env path left) ++ sep ++
          env.Apply right (dp.valueColor env path right))], true) := by
    rcases hsep with rfl | ⟨rfl, hno⟩
    · simp only [DescribePrinter.colorFprintLabelOrAnnotation, hpath, if_true,
        labelOrAnnotationSeps, DescribePrinter.colorFprintSeps, hcut]
    · have hnone := Cut_none ": ".toList _ hno
      simp only [DescribePrinter.colorFprintLabelOrAnnotation, hpath, if_true,
        labelOrAnnotationSeps, DescribePrinter.colorFprintSeps, hnone, hcut]
  refine ⟨hsplit, ?_⟩
  intro line hv
  have hlen : line.Value.length > 0 := by
    rw [hv]
    rcases hsep with rfl | ⟨rfl, _⟩ <;> simp
  simp only [DescribePrinter.printValue, hlen, if_true]
  rw [hv, hsplit]

/-- C9, run under `[Labels]` on `a=b: c=d`, split at `: ` although `=` comes first, and
on `a=b=c`, split at the first `=`. -/
theorem label_split_position_witness :
    freshPrinter.colorFprintLabelOrAnnotation demoDeps ["Labels".toList] "a=b: c=d".toList =
      ([.write "0[a=b]: 0[c=d]".toList], true) ∧
    freshPrinter.colorFprintLabelOrAnnotation demoDeps ["Labels".toList] "a=b=c".toList =
      ([.write "0[a]=0[b=c]".toList], true) :=
  ⟨(label_split_position demoDeps freshPrinter ["Labels".toList] (by decide)
      "a=b".toList "c=d".toList ": ".toList (Or.inl rfl) (by
        intro l2 r2 h
        by_contra hlt
        have hl : l2.length < 3 := by simpa using hlt
        have hr : ("a=b: c=d".toList).drop l2.length = ": ".toList ++ r2 := by
          have := congrArg (List.drop l2.length) h
          simpa using this
        generalize l2.length = n at hl hr
        interval_cases n <;> simp at hr)).1,
   (label_split_position demoDeps freshPrinter ["Labels".toList] (by decide)
      "a".toList "b=c".toList "=".toList (Or.inr ⟨rfl, by decide⟩) (by
        intro l2 r2 h
        by_contra hlt
        have hl : l2.length < 1 := by simpa using hlt
        have hr : ("a=b=c".toList).drop l2.length = "=".toList ++ r2 := by
          have := congrArg (List.drop l2.length) h
          simpa using this
        generalize l2.length = n at hl hr
        interval_cases n
        simp at hr)).1⟩

/-! ## Table threshold -/

/-- C2, as stated, fails: the line `Name: a b` has three tokens, yet the loop body does
not buffer it; the column test looks at the value `a b` only, and the line is printed as
a key and a value. -/
theorem table_test_ignores_key :
    CountColumns nameLine.String " \t".toList = 3 ∧
    DescribePrinter.printLine demoDeps (freshPrinter, []) (nameLine, ["Name".toList]) =
      (freshPrinter,
        [.write [], .write "3[Name]:".toList, .write " ".toList, .write "0[a b]".toList,
         .write "\n".toList]) := by
  decide

/-- C2, amended: every line whose value has three or more columns separated by spaces or
tabs is buffered: the loop body appends the line's text and a newline to the table buffer,
opening it if need be, and makes no call on the sink, whatever the line's key. -/
theorem table_line_buffered {Color : Type} (env : Deps Color)
    (st : DescribePrinter × List Out) (line : Line) (path : Path)
    (h : 3 ≤ CountColumns line.Value " \t".toList) :
    DescribePrinter.printLine env st (line, path) =
      (⟨st.1.DarkBackground,
          some (st.1.tableBytes.getD [] ++ (line.String ++ "\n".toList))⟩, st.2) := by
  have ht : isTableLine (line, path).1 = true := by
    simpa [isTableLine] using h
  exact printLine_of_table env st (line, path) ht

/-- C2, run on the row `  Type  Reason  Age` with an open buffer and with none. -/
theorem table_line_buffered_witness :
    DescribePrinter.printLine demoDeps (freshPrinter, []) (rowLine, []) =
      (⟨true, some "  Type  Reason  Age\n".toList⟩, []) ∧
    DescribePrinter.printLine demoDeps
        (⟨true, some "a  b  c\n".toList⟩, [.write "x".toList]) (rowLine, []) =
      (⟨true, some "a  b  c\n  Type  Reason  Age\n".toList⟩, [.write "x".toList]) :=
  ⟨table_line_buffered demoDeps (freshPrinter, []) rowLine [] (by decide),
   table_line_buffered demoDeps (⟨true, some "a  b  c\n".toList⟩, [.write "x".toList])
     rowLine [] (by decide)⟩

/-- C3: a line that has exactly two tokens separated by spaces or tabs is never appended
to the table buffer: the loop body hands an open buffer to the table printer, leaves no
buffer open and prints the line as a key and a value. -/
theorem two_token_line_not_buffered {Color : Type} (env : Deps Color)
    (st : DescribePrinter × List Out) (line : Line) (path : Path)
    (h : CountColumns line.String " \t".toList = 2) :
    DescribePrinter.printLine env st (line, path) =
      (⟨st.1.DarkBackground, none⟩,
        st.2 ++ st.1.pendingTable ++ [.write line.Indent] ++ st.1.printKey env line path ++
          [.write line.Spacing] ++ st.1.printValue env line path ++
          [.write (line.Trailing ++ "\n".toList)]) := by
  have hv := CountColumns_value_le " \t".toList line
  have ht : isTableLine (line, path).1 = false := by
    simp only [isTableLine, decide_eq_false_iff_not]
    omega
  exact printLine_of_plain env st (line, path) ht

/-- C3, run on `Status:  Running` after a table row was buffered. -/
theorem two_token_line_not_buffered_witness :
    CountColumns statusLine.String " \t".toList = 2 ∧
    DescribePrinter.printLine demoDeps (⟨true, some "a  b  c\n".toList⟩, [])
        (statusLine, ["Status".toList]) =
      (⟨true, none⟩,
        [.table "a  b  c\n".toList, .write [], .write "3[Status]:".toList,
         .write "  ".toList, .write "1[Running]".toList, .write "\n".toList]) :=
  ⟨by decide,
   two_token_line_not_buffered demoDeps (⟨true, some "a  b  c\n".toList⟩, []) statusLine
     ["Status".toList] (by decide)⟩

/-- After a run: the first line that is not buffered hands the buffer to the table
printer, and the loop goes on as it would from a printer with no buffer open. -/
theorem foldl_printLine_flush {Color : Type} (env : Deps Color) (dark : Bool) (T : Text)
    (w : List Out) (y : Line × Path) (post : List (Line × Path))
    (hy : isTableLine y.1 = false) :
    (y :: post).foldl (DescribePrinter.printLine env) (⟨dark, some T⟩, w) =
      (((y :: post).foldl (DescribePrinter.printLine env) (⟨dark, none⟩, [])).1,
        w ++ [.table T] ++
          ((y :: post).foldl (DescribePrinter.printLine env) (⟨dark, none⟩, [])).2) := by
  have h1 : DescribePrinter.printLine env (⟨dark, some T⟩, w) y =
      (⟨dark, none⟩,
        (w ++ [.table T]) ++ (DescribePrinter.printLine env (⟨dark, none⟩, []) y).2) := by
    rw [printLine_of_plain env _ y hy, printLine_of_plain env _ y hy]
    simp only [DescribePrinter.pendingTable, List.nil_append, List.append_nil,
      List.append_assoc]
    rfl
  have h2 : DescribePrinter.printLine env (⟨dark, none⟩, []) y =
      (⟨dark, none⟩, (DescribePrinter.printLine env (⟨dark, none⟩, []) y).2) := by
    rw [printLine_of_plain env _ y hy]
  rw [List.foldl_cons, List.foldl_cons, h1, h2, foldl_printLine_sink,
    foldl_printLine_sink env post _ (DescribePrinter.printLine env _ y).2]
  simp

/-- C4: table regions are flushed in input order. On a printer with no buffer open, for
every input `pre ++ run ++ post` in which `run` is a maximal run of buffered lines (`pre`
is empty or ends with a line that is not buffered, `post` is empty or starts with one),
the calls made on the sink are the calls made for `pre`, then exactly one call of the
table printer, on the texts of the lines of `run` each followed by a newline, then the
calls made for `post`; this holds too when the run ends the input, and no buffer is left
open. -/
theorem table_region_flushed_once {Color : Type} (env : Deps Color) (dp : DescribePrinter)
    (hdp : dp.tableBytes = none) (pre run post : List (Line × Path))
    (hpre : ∀ x, pre.getLast? = some x → isTableLine x.1 = false)
    (hrun : run ≠ []) (hall : ∀ x ∈ run, isTableLine x.1 = true)
    (hpost : ∀ x, post.head? = some x → isTableLine x.1 = false) :
    dp.Print env (pre ++ run ++ post) =
      (dp, (dp.Print env pre).2 ++ [.table (linesText run)] ++ (dp.Print env post).2) := by
  have hclosed := foldl_printLine_closed env dp hdp pre hpre
  obtain ⟨dark, tb⟩ := dp
  simp only at hdp
  subst hdp
  cases run with
  | nil => exact absurd rfl hrun
  | cons x run =>
    have hx : isTableLine x.1 = true := hall x (List.mem_cons_self _ _)
    have hrest : ∀ z ∈ run, isTableLine z.1 = true :=
      fun z hz => hall z (List.mem_cons_of_mem _ hz)
    have hfold : (pre ++ x :: run).foldl (DescribePrinter.printLine env) (⟨dark, none⟩, []) =
        (⟨dark, some (linesText (x :: run))⟩,
          (pre.foldl (DescribePrinter.printLine env) (⟨dark, none⟩, [])).2) := by
      rw [List.foldl_append]
      have hsplit : pre.foldl (DescribePrinter.printLine env) (⟨dark, none⟩, []) =
          (⟨dark, none⟩,
            (pre.foldl (DescribePrinter.printLine env) (⟨dark, none⟩, [])).2) :=
        Prod.ext hclosed rfl
      rw [hsplit, foldl_printLine_run env run hrest x hx]
      simp
    have hprintPre : (DescribePrinter.Print env ⟨dark, none⟩ pre).2 =
        (pre.foldl (DescribePrinter.printLine env) (⟨dark, none⟩, [])).2 := by
      rw [Print_eq, hclosed]
      simp [DescribePrinter.pendingTable]
    cases post with
    | nil =>
      rw [List.append_nil, Print_eq, hfold, hprintPre, Print_eq]
      simp [DescribePrinter.pendingTable]
    | cons y post =>
      have hy : isTableLine y.1 = false := hpost y rfl
      rw [Print_eq, Print_eq env ⟨dark, none⟩ (y :: post), ← List.append_assoc,
        List.foldl_append, hfold, hprintPre, foldl_printLine_flush env dark _ _ y post hy]
      simp only [List.append_assoc, Prod.mk.injEq, and_true]
      have hd : ∀ (ls : List (Line × Path)) (st : DescribePrinter × List Out),
          (ls.foldl (DescribePrinter.printLine env) st).1.DarkBackground =
            st.1.DarkBackground := by
        intro ls
        induction ls with
        | nil => intro st; rfl
        | cons z zs ih => intro st; rw [List.foldl_cons, ih, printLine_dark]
      rw [hd]

/-- C4, run on `Status:  Running`, two table rows, `Name: a b`, and on the same input
without the last line: the two rows reach the table printer in one call, between the
calls for the lines around them, or after the last line. -/
theorem table_region_flushed_once_witness :
    freshPrinter.Print demoDeps
        ([(statusLine, ["Status".toList])] ++ [(rowLine, []), (rowLine, [])] ++
          [(nameLine, ["Name".toList])]) =
      (freshPrinter,
        [.write [], .write "3[Status]:".toList, .write "  ".toList,
         .write "1[Running]".toList, .write "\n".toList] ++
        [.table "  Type  Reason  Age\n  Type  Reason  Age\n".toList] ++
        [.write [], .write "3[Name]:".toList, .write " ".toList, .write "0[a b]".toList,
         .write "\n".toList]) ∧
    freshPrinter.Print demoDeps
        ([(statusLine, ["Status".toList])] ++ [(rowLine, []), (rowLine, [])] ++ []) =
      (freshPrinter,
        (freshPrinter.Print demoDeps [(statusLine, ["Status".toList])]).2 ++
        [.table "  Type  Reason  Age\n  Type  Reason  Age\n".toList] ++ []) :=
  ⟨table_region_flushed_once demoDeps freshPrinter rfl
      [(statusLine, ["Status".toList])] [(rowLine, []), (rowLine, [])]
      [(nameLine, ["Name".toList])]
      (by intro x hx; simp at hx; subst hx; decide) (by simp)
      (by intro x hx; simp at hx; subst hx; decide)
      (by intro x hx; simp at hx; subst hx; decide),
   table_region_flushed_once demoDeps freshPrinter rfl
      [(statusLine, ["Status".toList])] [(rowLine, []), (rowLine, [])] []
      (by intro x hx; simp at hx; subst hx; decide) (by simp)
      (by intro x hx; simp at hx; subst hx; decide)
      (by intro x hx; simp at hx)⟩

/-! ## Layout of a line -/

/-- C10: for a line that is not buffered, the bytes written for it are the indent, the
decorated key, the spacing, the decorated value, the trailing text and one newline, in
that order (after the pending table, if any); an empty key and an empty value write
nothing, and a key ending in a colon is written as the coloured key without the colon
followed by the colon itself. -/
theorem plain_line_layout {Color : Type} (env : Deps Color) (tablePrint : Text → Text)
    (st : DescribePrinter × List Out) (line : Line) (path : Path)
    (h : isTableLine line = false) :
    sinkBytes tablePrint (DescribePrinter.printLine env st (line, path)).2 =
      sinkBytes tablePrint st.2 ++ sinkBytes tablePrint st.1.pendingTable ++
        (line.Indent ++ sinkBytes tablePrint (st.1.printKey env line path) ++ line.Spacing ++
          sinkBytes tablePrint (st.1.printValue env line path) ++ line.Trailing ++
          "\n".toList) ∧
    (line.Key = [] → st.1.printKey env line path = []) ∧
    (∀ k, line.Key = k ++ ":".toList →
      sinkBytes tablePrint (st.1.printKey env line path) =
        env.Apply k (env.getColorByKeyIndent line.KeyIndent basicIndentWidth
          st.1.DarkBackground) ++ ":".toList) ∧
    (line.Value = [] → st.1.printValue env line path = []) := by
  refine ⟨?_, ?_, ?_, ?_⟩
  · rw [printLine_of_plain env st (line, path) h]
    simp only [sinkBytes_append, sinkBytes_write, List.append_assoc]
    rfl
  · intro hk
    simp [DescribePrinter.printKey, hk]
  · intro k hk
    have hlen : 0 < (k ++ ":".toList).length := by simp
    simp only [DescribePrinter.printKey, hk, gt_iff_lt, hlen, if_true, CutSuffix_append,
      sinkBytes_write]
  · intro hv
    simp [DescribePrinter.printValue, hv]

/-- C10, run on `Status:  Running` under the path `[Status]`. -/
theorem plain_line_layout_witness :
    isTableLine statusLine = false ∧
    sinkBytes id (DescribePrinter.printLine demoDeps (freshPrinter, [])
        (statusLine, ["Status".toList])).2 = "3[Status]:  1[Running]\n".toList ∧
    sinkBytes id (freshPrinter.printKey demoDeps statusLine ["Status".toList]) =
      "3[Status]:".toList :=
  ⟨by decide,
   by
    have h := (plain_line_layout demoDeps id (freshPrinter, []) statusLine
      ["Status".toList] (by decide)).1
    rw [h]
    decide,
   (plain_line_layout demoDeps id (freshPrinter, []) statusLine ["Status".toList]
      (by decide)).2.2.1 "Status".toList (by decide)⟩

/-! ## Round trip -/

/-- C1, as stated, fails for a text that does not end with a newline: whatever lines the
scanner yields for the one-character text `a`, with colours disabled and a table printer
that copies its buffer `Print` does not write `a`; what it writes is empty or ends with a
newline. -/
theorem round_trip_needs_final_newline :
    ¬ ∃ ls : List (Line × Path),
      sinkBytes id (freshPrinter.Print plainDeps ls).2 = "a".toList := by
  rintro ⟨ls, h⟩
  rw [Print_plain_bytes plainDeps (fun _ _ => rfl) id (fun _ => rfl) freshPrinter rfl ls] at h
  cases ls with
  | nil => simp [linesText] at h
  | cons x xs =>
    have hl : linesText (x :: xs) = x.1.String ++ ('\n' :: linesText xs) := by
      simp [linesText]
    rw [hl] at h
    cases hs : x.1.String with
    | nil =>
      rw [hs] at h
      simp only [List.nil_append, String.toList, List.cons.injEq] at h
      exact absurd h.1 (by decide)
    | cons c s =>
      rw [hs] at h
      simp only [List.cons_append, String.toList, List.cons.injEq] at h
      have h2 := h.2
      simp at h2

/-- C1, amended: round trip with colours disabled, for a text whose lines are each
followed by a newline. For every sequence of lines the scanner yields, with `Apply` the
identity and a table printer that copies its buffer, `Print` on a printer with no buffer
open writes exactly the text of the lines, each followed by a newline, and leaves no
buffer open. -/
theorem round_trip_colours_disabled {Color : Type} (env : Deps Color)
    (hApply : ∀ s c, env.Apply s c = s) (tablePrint : Text → Text)
    (hTable : ∀ b, tablePrint b = b) (dp : DescribePrinter) (hdp : dp.tableBytes = none)
    (ls : List (Line × Path)) :
    sinkBytes tablePrint (dp.Print env ls).2 = linesText ls ∧
    (dp.Print env ls).1.tableBytes = none := by
  refine ⟨Print_plain_bytes env hApply tablePrint hTable dp hdp ls, ?_⟩
  rw [Print_eq]

/-- C1, run on `Status:  Running`, two table rows and `Name: a b`. -/
theorem round_trip_colours_disabled_witness :
    sinkBytes id (freshPrinter.Print plainDeps
        [(statusLine, ["Status".toList]), (rowLine, []), (rowLine, []),
         (nameLine, ["Name".toList])]).2 =
      "Status:  Running\n  Type  Reason  Age\n  Type  Reason  Age\nName: a b\n".toList :=
  (round_trip_colours_disabled plainDeps (fun _ _ => rfl) id (fun _ => rfl) freshPrinter rfl
    [(statusLine, ["Status".toList]), (rowLine, []), (rowLine, []),
     (nameLine, ["Name".toList])]).1

/-! ## The table buffer between calls -/

/-- C17: the table buffer never outlives a call of `Print`: on a printer with no buffer
open, whatever the input, also one that ends inside a table region, `Print` returns the
printer as it was, with no buffer open, so that a second `Print` on it makes the calls a
fresh printer makes. -/
theorem table_buffer_closed {Color : Type} (env : Deps Color) (dp : DescribePrinter)
    (hdp : dp.tableBytes = none) (r : List (Line × Path)) :
    (dp.Print env r).1.tableBytes = none ∧ (dp.Print env r).1 = dp ∧
    ∀ r2, (dp.Print env r).1.Print env r2 = dp.Print env r2 := by
  have h : (dp.Print env r).1 = dp := by
    rw [Print_printer]
    obtain ⟨dark, tb⟩ := dp
    simp only at hdp
    rw [hdp]
  refine ⟨by rw [h]; exact hdp, h, ?_⟩
  intro r2
  rw [h]

/-- C17, run on an input that ends with two table rows. -/
theorem table_buffer_closed_witness :
    (freshPrinter.Print demoDeps
      [(statusLine, ["Status".toList]), (rowLine, []), (rowLine, [])]).1.tableBytes = none :=
  (table_buffer_closed demoDeps freshPrinter rfl
    [(statusLine, ["Status".toList]), (rowLine, []), (rowLine, [])]).1

/-! ## The pod example -/

/-- C14: the six-line pod example. With a status vocabulary that gives `Running` the
colour `col`, `Print` buffers none of the six lines and makes no call of the table
printer; it writes `my-pod` in its type colour, `app` and `myapp` as two coloured spans
around a bare `=`, and `Running`, under `[Status]` and under
`[Containers, my-container, State]`, in the colour `col` of the vocabulary. -/
theorem pod_example_colours {Color : Type} (env : Deps Color) (dp : DescribePrinter)
    (hdp : dp.tableBytes = none) (col : Color)
    (hcol : env.ColorStatus "Running".toList = some col) :
    (∀ x ∈ podExample, isTableLine x.1 = false) ∧
    dp.Print env podExample =
      (dp,
        [.write [],
         .write (env.Apply "Name".toList
           (env.getColorByKeyIndent 0 basicIndentWidth dp.DarkBackground) ++ ":".toList),
         .write "         ".toList,
         .write (env.Apply "my-pod".toList
           (env.getColorByValueType "my-pod".toList dp.DarkBackground)),
         .write "\n".toList,
         .write [],
         .write (env.Apply "Labels".toList
           (env.getColorByKeyIndent 0 basicIndentWidth dp.DarkBackground) ++ ":".toList),
         .write "       ".toList,
         .write (env.Apply "app".toList (dp.valueColor env ["Labels".toList] "app".toList) ++
           "=".toList ++
           env.Apply "myapp".toList (dp.valueColor env ["Labels".toList] "myapp".toList)),
         .write "\n".toList,
         .write [],
         .write (env.Apply "Status".toList
           (env.getColorByKeyIndent 0 basicIndentWidth dp.DarkBackground) ++ ":".toList),
         .write "       ".toList,
         .write (env.Apply "Running".toList col),
         .write "\n".toList,
         .write [],
         .write (env.Apply "Containers".toList
           (env.getColorByKeyIndent 0 basicIndentWidth dp.DarkBackground) ++ ":".toList),
         .write [],
         .write "\n".toList,
         .write "  ".toList,
         .write (env.Apply "my-container".toList
           (env.getColorByKeyIndent 1 basicIndentWidth dp.DarkBackground) ++ ":".toList),
         .write [],
         .write "\n".toList,
         .write "    ".toList,
         .write (env.Apply "State".toList
           (env.getColorByKeyIndent 2 basicIndentWidth dp.DarkBackground) ++ ":".toList),
         .write "       ".toList,
         .write (env.Apply "Running".toList col),
         .write "\n".toList]) := by
  have hplain : ∀ x ∈ podExample, isTableLine x.1 = false := by decide
  refine ⟨hplain, ?_⟩
  have hk1 := printKey_of_colon env dp podName ["Name".toList] "Name".toList rfl
  have hk2 := printKey_of_colon env dp podLabels ["Labels".toList] "Labels".toList rfl
  have hk3 := printKey_of_colon env dp podStatus ["Status".toList] "Status".toList rfl
  have hk4 := printKey_of_colon env dp podContainers ["Containers".toList]
    "Containers".toList rfl
  have hk5 := printKey_of_colon env dp podContainer
    ["Containers".toList, "my-container".toList] "my-container".toList rfl
  have hk6 := printKey_of_colon env dp podState
    ["Containers".toList, "my-container".toList, "State".toList] "State".toList rfl
  have hv1 : dp.printValue env podName ["Name".toList] =
      [.write (env.Apply "my-pod".toList
        (env.getColorByValueType "my-pod".toList dp.DarkBackground))] := by
    rw [printValue_of_whole env dp podName ["Name".toList] (by decide) (Or.inl (by decide)),
      valueColor_of_plain env dp ["Name".toList] podName.Value (by decide)]
    have e : TrimSpace podName.Value = "my-pod".toList := by decide
    rw [e]
    rfl
  have hv2 : dp.printValue env podLabels ["Labels".toList] =
      [.write (env.Apply "app".toList (dp.valueColor env ["Labels".toList] "app".toList) ++
        "=".toList ++
        env.Apply "myapp".toList (dp.valueColor env ["Labels".toList] "myapp".toList))] := by
    have h1 : Cut "app=myapp".toList ": ".toList = ("app=myapp".toList, [], false) := by
      decide
    have h2 : Cut "app=myapp".toList "=".toList = ("app".toList, "myapp".toList, true) := by
      decide
    have h3 : describeUseStatusColoring ["Labels".toList] = true := by decide
    have hlen : podLabels.Value.length > 0 := by decide
    simp only [DescribePrinter.printValue, hlen, if_true]
    simp only [podLabels, DescribePrinter.colorFprintLabelOrAnnotation, h3, if_true,
      labelOrAnnotationSeps, DescribePrinter.colorFprintSeps, h1, h2]
  have hrun : env.ColorStatus (TrimSpace "Running".toList) = some col := by
    have e : TrimSpace "Running".toList = "Running".toList := by decide
    rw [e]; exact hcol
  have hv3 : dp.printValue env podStatus ["Status".toList] =
      [.write (env.Apply "Running".toList col)] := by
    rw [printValue_of_whole env dp podStatus ["Status".toList] (by decide)
        (Or.inr ⟨by decide, by decide⟩)]
    show [Out.write (env.Apply "Running".toList
      (dp.valueColor env ["Status".toList] "Running".toList))] = _
    rw [valueColor_of_status env dp ["Status".toList] "Running".toList col (by decide) hrun]
  have hv4 := printValue_of_empty env dp podContainers ["Containers".toList] rfl
  have hv5 := printValue_of_empty env dp podContainer
    ["Containers".toList, "my-container".toList] rfl
  have hv6 : dp.printValue env podState
      ["Containers".toList, "my-container".toList, "State".toList] =
      [.write (env.Apply "Running".toList col)] := by
    rw [printValue_of_whole env dp podState _ (by decide) (Or.inr ⟨by decide, by decide⟩)]
    show [Out.write (env.Apply "Running".toList (dp.valueColor env
      ["Containers".toList, "my-container".toList, "State".toList] "Running".toList))] = _
    rw [valueColor_of_status env dp
      ["Containers".toList, "my-container".toList, "State".toList] "Running".toList col
      (by decide) hrun]
  rw [Print_of_plain_lines env dp hdp podExample hplain]
  simp only [podExample, List.flatMap_cons, List.flatMap_nil, hk1, hk2, hk3, hk4, hk5, hk6,
    hv1, hv2, hv3, hv4, hv5, hv6]
  rfl

/-- C14, run with numbered colours: type colour 0 for `my-pod`, `app` and `myapp`, status
colour 1 for `Running` on both lines, and no call of the table printer. -/
theorem pod_example_colours_witness :
    sinkBytes id (freshPrinter.Print demoDeps podExample).2 =
      "3[Name]:         0[my-pod]\n3[Labels]:       0[app]=0[myapp]\n".toList ++
      "3[Status]:       1[Running]\n3[Containers]:\n  3[my-container]:\n".toList ++
      "    4[State]:       1[Running]\n".toList := by
  rw [(pod_example_colours demoDeps freshPrinter rfl 1 (by decide)).2]
  decide

end Kubecolor
